import Mathlib

/-!
Verification of the stock stochastic trade analyzer (src/app.py).

The development shallowly embeds the analytical core of the program:
indicator computation over daily bars (pandas rolling windows, with NaN
and infinity semantics modelled by an explicit value type `PVal`), the
trade simulator, the pairwise overlap classifier and the bucketed scorer.
Dates are modelled as integer day numbers, prices as rationals.
-/

/-- Model of a pandas float cell: a finite rational, +inf, -inf, or NaN.
NaN arises from incomplete rolling windows and 0/0; infinities arise from
division of a nonzero value by zero. -/
inductive PVal where
  | num (q : ℚ)
  | inf
  | ninf
  | nan
deriving DecidableEq

namespace PVal

/-- IEEE addition on the modelled values. -/
def add : PVal → PVal → PVal
  | nan, _ => nan
  | _, nan => nan
  | num a, num b => num (a + b)
  | num _, inf => inf
  | inf, num _ => inf
  | num _, ninf => ninf
  | ninf, num _ => ninf
  | inf, inf => inf
  | ninf, ninf => ninf
  | inf, ninf => nan
  | ninf, inf => nan

/-- IEEE subtraction on the modelled values. -/
def sub : PVal → PVal → PVal
  | nan, _ => nan
  | _, nan => nan
  | num a, num b => num (a - b)
  | num _, inf => ninf
  | num _, ninf => inf
  | inf, num _ => inf
  | ninf, num _ => ninf
  | inf, inf => nan
  | ninf, ninf => nan
  | inf, ninf => inf
  | ninf, inf => ninf

/-- IEEE multiplication on the modelled values. -/
def mul : PVal → PVal → PVal
  | nan, _ => nan
  | _, nan => nan
  | num a, num b => num (a * b)
  | num a, inf => if 0 < a then inf else if a < 0 then ninf else nan
  | inf, num a => if 0 < a then inf else if a < 0 then ninf else nan
  | num a, ninf => if 0 < a then ninf else if a < 0 then inf else nan
  | ninf, num a => if 0 < a then ninf else if a < 0 then inf else nan
  | inf, inf => inf
  | ninf, ninf => inf
  | inf, ninf => ninf
  | ninf, inf => ninf

/-- IEEE division on the modelled values (numpy: x/0 is ±inf for x ≠ 0,
0/0 is NaN). -/
def div : PVal → PVal → PVal
  | nan, _ => nan
  | _, nan => nan
  | num a, num b =>
    if b = 0 then (if 0 < a then inf else if a < 0 then ninf else nan)
    else num (a / b)
  | num _, inf => num 0
  | num _, ninf => num 0
  | inf, num b => if 0 ≤ b then inf else ninf
  | ninf, num b => if 0 ≤ b then ninf else inf
  | inf, inf => nan
  | inf, ninf => nan
  | ninf, inf => nan
  | ninf, ninf => nan

/-- Comparison `x < c` against a finite constant, as pandas evaluates it:
NaN compares false, +inf compares false, -inf compares true. -/
def ltB : PVal → ℚ → Bool
  | num a, c => a < c
  | inf, _ => false
  | ninf, _ => true
  | nan, _ => false

/-- Comparison `c > x` against a finite constant, as pandas evaluates it:
NaN compares false. -/
def gtB : ℚ → PVal → Bool
  | c, num a => a < c
  | _, inf => false
  | _, ninf => true
  | _, nan => false

end PVal

/-- One daily OHLC bar (only the fields the program reads). The date is a
calendar day number. -/
structure Bar where
  date : Int
  high : ℚ
  low : ℚ
  close : ℚ
deriving DecidableEq

instance : Inhabited Bar := ⟨⟨0, 0, 0, 0⟩⟩

/-- Close price of bar `i` (0 outside the series; guarded by window checks). -/
def closeAt (bars : List Bar) (i : Nat) : ℚ := (bars.getD i default).close

/-- Low price of bar `i`. -/
def lowAt (bars : List Bar) (i : Nat) : ℚ := (bars.getD i default).low

/-- High price of bar `i`. -/
def highAt (bars : List Bar) (i : Nat) : ℚ := (bars.getD i default).high

/-- Minimum of a list of rationals (0 on the empty list, never used there). -/
def listMin : List ℚ → ℚ
  | [] => 0
  | x :: xs => xs.foldr min x

/-- Maximum of a list of rationals (0 on the empty list, never used there). -/
def listMax : List ℚ → ℚ
  | [] => 0
  | x :: xs => xs.foldr max x

/-- Trailing window of `n` values ending at index `i`: `[f i, f (i-1), ...]`. -/
def window (f : Nat → ℚ) (n i : Nat) : List ℚ :=
  (List.range n).map (fun k => f (i - k))

/-- `series.rolling(n).min()` at index `i` of a series of length `len`. -/
def rollMin (f : Nat → ℚ) (n i len : Nat) : PVal :=
  if n ≤ i + 1 ∧ i < len then PVal.num (listMin (window f n i)) else PVal.nan

/-- `series.rolling(n).max()` at index `i` of a series of length `len`. -/
def rollMax (f : Nat → ℚ) (n i len : Nat) : PVal :=
  if n ≤ i + 1 ∧ i < len then PVal.num (listMax (window f n i)) else PVal.nan

/-- Trailing window of `n` cells ending at index `i`. -/
def pwindow (g : Nat → PVal) (n i : Nat) : List PVal :=
  (List.range n).map (fun k => g (i - k))

/-- Sum of a list of cells (NaN-propagating, as numpy's windowed sum). -/
def psum : List PVal → PVal := List.foldr PVal.add (PVal.num 0)

/-- `series.rolling(n).mean()` at index `i`: NaN while fewer than `n`
observations exist, NaN whenever the window holds a NaN. -/
def rollMeanP (g : Nat → PVal) (n i len : Nat) : PVal :=
  if n ≤ i + 1 ∧ i < len then PVal.div (psum (pwindow g n i)) (PVal.num n)
  else PVal.nan

/-- `low_min = df['low'].rolling(4).min()`. -/
def low_min (bars : List Bar) (i : Nat) : PVal := rollMin (lowAt bars) 4 i bars.length

/-- `high_max = df['high'].rolling(4).max()`. -/
def high_max (bars : List Bar) (i : Nat) : PVal := rollMax (highAt bars) 4 i bars.length

/-- `raw_k = 100 * (close - low_min) / (high_max - low_min)`. -/
def raw_k (bars : List Bar) (i : Nat) : PVal :=
  PVal.div
    (PVal.mul (PVal.num 100) (PVal.sub (PVal.num (closeAt bars i)) (low_min bars i)))
    (PVal.sub (high_max bars i) (low_min bars i))

/-- `df['%K'] = raw_k.rolling(3).mean()`. -/
def stochK (bars : List Bar) (i : Nat) : PVal := rollMeanP (raw_k bars) 3 i bars.length

/-- `df['%D'] = df['%K'].rolling(3).mean()`. -/
def stochD (bars : List Bar) (i : Nat) : PVal := rollMeanP (stochK bars) 3 i bars.length

/-- `df['200DMA'] = df['close'].rolling(200).mean()`. -/
def longMA (bars : List Bar) (i : Nat) : PVal :=
  rollMeanP (fun j => PVal.num (closeAt bars j)) 200 i bars.length

/-- `delta = df['close'].diff()` (NaN at index 0). -/
def delta (bars : List Bar) (i : Nat) : PVal :=
  if 1 ≤ i ∧ i < bars.length then PVal.num (closeAt bars i - closeAt bars (i - 1))
  else PVal.nan

/-- `gain = delta.where(delta > 0, 0)`: pandas `where` replaces every cell
whose condition is false, so a NaN delta (which compares false) becomes 0. -/
def gain (bars : List Bar) (i : Nat) : PVal :=
  match delta bars i with
  | PVal.num d => if 0 < d then PVal.num d else PVal.num 0
  | PVal.inf => PVal.inf
  | _ => PVal.num 0

/-- `loss = -delta.where(delta < 0, 0)` (losses as positive magnitudes;
a NaN delta again becomes 0). -/
def loss (bars : List Bar) (i : Nat) : PVal :=
  match delta bars i with
  | PVal.num d => if d < 0 then PVal.num (-d) else PVal.num 0
  | PVal.ninf => PVal.inf
  | _ => PVal.num 0

/-- `avg_gain = gain.rolling(2).mean()`. -/
def avg_gain (bars : List Bar) (i : Nat) : PVal := rollMeanP (gain bars) 2 i bars.length

/-- `avg_loss = loss.rolling(2).mean()`. -/
def avg_loss (bars : List Bar) (i : Nat) : PVal := rollMeanP (loss bars) 2 i bars.length

/-- `rs = avg_gain / avg_loss`. -/
def rs (bars : List Bar) (i : Nat) : PVal := PVal.div (avg_gain bars i) (avg_loss bars i)

/-- `df['RSI_2'] = 100 - (100 / (1 + rs))`. -/
def rsi2 (bars : List Bar) (i : Nat) : PVal :=
  PVal.sub (PVal.num 100) (PVal.div (PVal.num 100) (PVal.add (PVal.num 1) (rs bars i)))

/-- Entry mask `(df['%K'] < 20) & (df['%D'] < 20) & (df['RSI_2'] < 15) &
(df['close'] > df['200DMA'])` at bar `i`. -/
def entrySignal (bars : List Bar) (i : Nat) : Bool :=
  PVal.ltB (stochK bars i) 20 && PVal.ltB (stochD bars i) 20 &&
  PVal.ltB (rsi2 bars i) 15 && PVal.gtB (closeAt bars i) (longMA bars i)

/-- `entries = df[mask]`: the bars, in chronological order, where the entry
signal fires. -/
def entryBars (bars : List Bar) : List Bar :=
  ((List.range bars.length).filter (fun i => entrySignal bars i)).map
    (fun i => bars.getD i default)

/-- Outcome of a simulated trade: `"Target Hit"` or `"Open Trade"`. -/
inductive Outcome where
  | targetHit
  | openTrade
deriving DecidableEq

/-- One simulated trade record, as assembled in the entry loop. -/
structure Trade where
  entryDate : Int
  entryPrice : ℚ
  exitDate : Option Int
  exitPrice : Option ℚ
  outcome : Outcome
  holdingDays : Option Int
deriving DecidableEq

/-- Python's `round(x, 2)`: scale by 100, round half to even, scale back. -/
def round2 (x : ℚ) : ℚ :=
  let y : ℚ := x * 100
  let f : ℤ := Int.floor y
  let r : ℚ := y - (f : ℚ)
  let n : ℤ :=
    if 1 / 2 < r then f + 1
    else if r < 1 / 2 then f
    else if f % 2 = 0 then f else f + 1
  (n : ℚ) / 100

/-- Body of the entry loop for one qualifying bar `b`:
`target_price = round(1.05 * entry_price, 2)`, then the first strictly-later
bar (by date) whose high reaches the target closes the trade. -/
def mkTrade (bars : List Bar) (b : Bar) : Trade :=
  let tp := round2 (1.05 * b.close)
  let future := bars.filter (fun x => decide (b.date < x.date))
  match future.find? (fun x => decide (tp ≤ x.high)) with
  | some ex =>
    { entryDate := b.date, entryPrice := b.close, exitDate := some ex.date,
      exitPrice := some ex.high, outcome := Outcome.targetHit,
      holdingDays := some (ex.date - b.date) }
  | none =>
    { entryDate := b.date, entryPrice := b.close, exitDate := none,
      exitPrice := none, outcome := Outcome.openTrade, holdingDays := none }

/-- The full entry loop: one trade per qualifying bar, in chronological order. -/
def simulate (bars : List Bar) : List Trade :=
  (entryBars bars).map (mkTrade bars)

/-- Overlap classification of one trade. -/
inductive Overlap where
  | noOverlap
  | partOverlapped
  | fullyOverlapped
deriving DecidableEq

/-- Effective interval of a trade: `(Entry Date, Exit Date or last_date)`. -/
def effInterval (last : Int) (t : Trade) : Int × Int :=
  (t.entryDate, t.exitDate.getD last)

/-- Closed-interval intersection test `s_i <= e_j and e_i >= s_j`. -/
def intersectsB (si ei sj ej : Int) : Bool := decide (si ≤ ej) && decide (sj ≤ ei)

/-- Full-containment test `s_i >= s_j and e_i <= e_j` (interval j contains i). -/
def containsB (si ei sj ej : Int) : Bool := decide (sj ≤ si) && decide (ei ≤ ej)

/-- Stable insertion of a trade into a list sorted by entry date (mirrors
Python's stable `sorted` keyed on `Entry Date`). -/
def insertByEntry (t : Trade) : List Trade → List Trade
  | [] => [t]
  | u :: us =>
    if t.entryDate ≤ u.entryDate then t :: u :: us else u :: insertByEntry t us

/-- `trades_sorted = sorted(trades_list, key=lambda x: x['Entry Date'])`. -/
def sortByEntry : List Trade → List Trade
  | [] => []
  | t :: ts => insertByEntry t (sortByEntry ts)

/-- The inner `for j ...` loop of `classify_overlaps` for trade `i` with
interval `(si, ei)`: skip `j == i`; on the first full containment stop with
FullyOverlapped (the `break`); otherwise remember any intersection in the
`part` flag. -/
def classifyLoop (si ei : Int) (i : Nat) : List (Nat × Int × Int) → Bool → Overlap
  | [], part => if part then Overlap.partOverlapped else Overlap.noOverlap
  | (j, sj, ej) :: rest, part =>
    if j = i then classifyLoop si ei i rest part
    else if intersectsB si ei sj ej then
      if containsB si ei sj ej then Overlap.fullyOverlapped
      else classifyLoop si ei i rest true
    else classifyLoop si ei i rest part

/-- `classify_overlaps(trades_list, last_date)`: sort by entry date, build
effective intervals, and tag every trade with its overlap type. -/
def classify_overlaps (ts : List Trade) (last : Int) : List (Trade × Overlap) :=
  let sorted := sortByEntry ts
  let iv := sorted.map (effInterval last)
  sorted.zip (iv.enum.map (fun p => classifyLoop p.2.1 p.2.2 p.1 iv.enum false))

/-- Specification-side classification of trade `i` with interval `(s, e)`:
FullyOverlapped when some other intersecting interval fully contains it,
PartiallyOverlapped when some other interval intersects it, NoOverlap when
none does. -/
def specOverlapAt (iv : List (Int × Int)) (i : Nat) (s e : Int) : Overlap :=
  if iv.enum.any (fun p =>
      decide (p.1 ≠ i) && intersectsB s e p.2.1 p.2.2 && containsB s e p.2.1 p.2.2) then
    Overlap.fullyOverlapped
  else if iv.enum.any (fun p => decide (p.1 ≠ i) && intersectsB s e p.2.1 p.2.2) then
    Overlap.partOverlapped
  else Overlap.noOverlap

/-- Specification-side classifier: same sorting and intervals, but each trade
classified by the declarative rule `specOverlapAt` instead of the
short-circuiting loop. -/
def specClassifyOverlaps (ts : List Trade) (last : Int) : List (Trade × Overlap) :=
  let sorted := sortByEntry ts
  let iv := sorted.map (effInterval last)
  sorted.zip (iv.enum.map (fun p => specOverlapAt iv p.1 p.2.1 p.2.2))

/-- Raw counters of `compute_counts`. -/
structure CountsN where
  le5 : Nat
  b5to10 : Nat
  b10to20 : Nat
  b20to30 : Nat
  gt30 : Nat
  neverHit : Nat
  thNoOverlap : Nat
  noOv : Nat
  partOv : Nat
  fullOv : Nat
deriving DecidableEq

/-- All counters start at zero. -/
def initCounts : CountsN := ⟨0, 0, 0, 0, 0, 0, 0, 0, 0, 0⟩

/-- `counts[overlap] += 1`. -/
def bumpOverlap (c : CountsN) (o : Overlap) : CountsN :=
  match o with
  | Overlap.noOverlap => { c with noOv := c.noOv + 1 }
  | Overlap.partOverlapped => { c with partOv := c.partOv + 1 }
  | Overlap.fullyOverlapped => { c with fullOv := c.fullOv + 1 }

/-- Body of the `for t in trades` loop of `compute_counts`: count the overlap
type; for a target hit bucket the holding days through the `elif` chain and
count TargetHit-NoOverlap; otherwise count Never Hit. -/
def bumpTrade (c : CountsN) (t : Trade × Overlap) : CountsN :=
  let c1 := bumpOverlap c t.2
  match t.1.outcome with
  | Outcome.targetHit =>
    let hd := t.1.holdingDays.getD 0
    let c2 :=
      if hd ≤ 5 then { c1 with le5 := c1.le5 + 1 }
      else if hd ≤ 10 then { c1 with b5to10 := c1.b5to10 + 1 }
      else if hd ≤ 20 then { c1 with b10to20 := c1.b10to20 + 1 }
      else if hd ≤ 30 then { c1 with b20to30 := c1.b20to30 + 1 }
      else { c1 with gt30 := c1.gt30 + 1 }
    if t.2 = Overlap.noOverlap then { c2 with thNoOverlap := c2.thNoOverlap + 1 }
    else c2
  | Outcome.openTrade => { c1 with neverHit := c1.neverHit + 1 }

/-- Percentage counters returned by `compute_counts`. -/
structure Counts where
  le5 : ℚ
  b5to10 : ℚ
  b10to20 : ℚ
  b20to30 : ℚ
  gt30 : ℚ
  neverHit : ℚ
  thNoOverlap : ℚ
  noOv : ℚ
  partOv : ℚ
  fullOv : ℚ
deriving DecidableEq

/-- `counts[key] = counts[key] / total_trades * 100 if total_trades > 0 else 0`. -/
def toPct (k total : Nat) : ℚ := if 0 < total then (k : ℚ) / (total : ℚ) * 100 else 0

/-- `compute_counts(trades, total_trades)`. -/
def compute_counts (ts : List (Trade × Overlap)) (total : Nat) : Counts :=
  let c := ts.foldl bumpTrade initCounts
  ⟨toPct c.le5 total, toPct c.b5to10 total, toPct c.b10to20 total,
   toPct c.b20to30 total, toPct c.gt30 total, toPct c.neverHit total,
   toPct c.thNoOverlap total, toPct c.noOv total, toPct c.partOv total,
   toPct c.fullOv total⟩

/-- `calculate_scores(counts)`: the weighted sums, rounded for presentation. -/
def calculate_scores (c : Counts) : ℚ × ℚ × ℚ :=
  let normal_score :=
    c.le5 * 0.50 + c.b5to10 * 0.25 + c.b10to20 * 0.125 +
    c.b20to30 * 0.075 + c.gt30 * 0.05
  let bonus_score :=
    c.thNoOverlap * 0.20 + c.partOv * 0.15 + c.fullOv * 0.10 - c.neverHit * 0.05
  let weighted_score := normal_score + bonus_score
  (round2 normal_score, round2 bonus_score, round2 weighted_score)

/-- Modelled from the spec: `normalScore = 0.50*P(<=5) + 0.25*P(5-10) +
0.125*P(10-20) + 0.075*P(20-30) + 0.05*P(>30)`. -/
def specNormalScore (c : Counts) : ℚ :=
  0.50 * c.le5 + 0.25 * c.b5to10 + 0.125 * c.b10to20 +
  0.075 * c.b20to30 + 0.05 * c.gt30

/-- Modelled from the spec: `bonusScore = 0.20*P(TargetHitNoOverlap) +
0.15*P(PartiallyOverlapped) + 0.10*P(FullyOverlapped) - 0.05*P(NeverHit)`. -/
def specBonusScore (c : Counts) : ℚ :=
  0.20 * c.thNoOverlap + 0.15 * c.partOv + 0.10 * c.fullOv - 0.05 * c.neverHit

/-- Concrete 201-bar series: 192 flat bars at 10, then a ranging decline that
fires the entry signal exactly at index 199, and a final bar that hits the
5% target. -/
def cbars : List Bar :=
  ((List.range 192).map (fun j => ⟨(j : Int), 10, 10, 10⟩)) ++
  [⟨192, 40, 24, 32⟩, ⟨193, 40, 24, 31⟩, ⟨194, 40, 24, 30⟩, ⟨195, 40, 24, 29⟩,
   ⟨196, 40, 24, 28⟩, ⟨197, 40, 24, 27⟩, ⟨198, 40, 24, 26⟩, ⟨199, 40, 24, 25⟩,
   ⟨200, 27, 24, 26⟩]

/-- The single trade the simulator produces on `cbars`. -/
def ctrade : Trade :=
  { entryDate := 199, entryPrice := 25, exitDate := some 200,
    exitPrice := some 27, outcome := Outcome.targetHit, holdingDays := some 1 }

/-- Six varied bars used to instantiate the indicator theorems. -/
def cbars6 : List Bar :=
  [⟨0, 12, 8, 10⟩, ⟨1, 13, 9, 11⟩, ⟨2, 14, 10, 12⟩, ⟨3, 15, 11, 13⟩,
   ⟨4, 16, 12, 14⟩, ⟨5, 17, 13, 15⟩]

/-- Two bars with a rising close: `avg_loss` is 0 at index 1 while
`avg_gain` is positive. -/
def cbarsUp : List Bar := [⟨0, 10, 10, 10⟩, ⟨1, 11, 11, 11⟩]

/-- Two bars with a falling close: only one prior price change exists at
index 1, yet `rsi2` evaluates there. -/
def cbarsDown : List Bar := [⟨0, 10, 10, 10⟩, ⟨1, 9, 9, 9⟩]

/-- Trade X of the spec's strict-containment example: days 1 to 10. -/
def tradeX : Trade :=
  { entryDate := 1, entryPrice := 100, exitDate := some 10, exitPrice := some 105,
    outcome := Outcome.targetHit, holdingDays := some 9 }

/-- Trade Y of the spec's strict-containment example: days 3 to 5. -/
def tradeY : Trade :=
  { entryDate := 3, entryPrice := 100, exitDate := some 5, exitPrice := some 105,
    outcome := Outcome.targetHit, holdingDays := some 2 }

/-- Two distinct trades with identical effective intervals (days 1 to 5). -/
def tradeA : Trade :=
  { entryDate := 1, entryPrice := 50, exitDate := some 5, exitPrice := some 53,
    outcome := Outcome.targetHit, holdingDays := some 4 }

/-- Second trade with the same effective interval as `tradeA`. -/
def tradeB : Trade :=
  { entryDate := 1, entryPrice := 60, exitDate := none, exitPrice := none,
    outcome := Outcome.openTrade, holdingDays := none }

/-- Entry bar of the `cbars` series. -/
def cb199 : Bar := ⟨199, 40, 24, 25⟩

/-- One-trade classified list used to instantiate the scorer theorems. -/
def ctrades3 : List (Trade × Overlap) := [(tradeA, Overlap.noOverlap)]

/-- Spec-side per-bar gain: the upward price change at bar `i`, 0 when the
change is not upward or no prior bar exists. -/
def gainQ (bars : List Bar) (i : Nat) : ℚ :=
  if 1 ≤ i ∧ i < bars.length ∧ closeAt bars (i - 1) < closeAt bars i
  then closeAt bars i - closeAt bars (i - 1) else 0

/-- Spec-side per-bar loss as a positive magnitude: the downward price change
at bar `i`, 0 when the change is not downward or no prior bar exists. -/
def lossQ (bars : List Bar) (i : Nat) : ℚ :=
  if 1 ≤ i ∧ i < bars.length ∧ closeAt bars i < closeAt bars (i - 1)
  then closeAt bars (i - 1) - closeAt bars i else 0

/-- Spec-side bucket test: TargetHit with holding days at most 5. -/
def specBucketLe5 (t : Trade × Overlap) : Bool :=
  decide (t.1.outcome = Outcome.targetHit) && decide (t.1.holdingDays.getD 0 ≤ 5)

/-- Spec-side bucket test: TargetHit with holding days in `(5, 10]`. -/
def specBucket5to10 (t : Trade × Overlap) : Bool :=
  decide (t.1.outcome = Outcome.targetHit) && decide (5 < t.1.holdingDays.getD 0) &&
  decide (t.1.holdingDays.getD 0 ≤ 10)

/-- Spec-side bucket test: TargetHit with holding days in `(10, 20]`. -/
def specBucket10to20 (t : Trade × Overlap) : Bool :=
  decide (t.1.outcome = Outcome.targetHit) && decide (10 < t.1.holdingDays.getD 0) &&
  decide (t.1.holdingDays.getD 0 ≤ 20)

/-- Spec-side bucket test: TargetHit with holding days in `(20, 30]`. -/
def specBucket20to30 (t : Trade × Overlap) : Bool :=
  decide (t.1.outcome = Outcome.targetHit) && decide (20 < t.1.holdingDays.getD 0) &&
  decide (t.1.holdingDays.getD 0 ≤ 30)

/-- Spec-side bucket test: TargetHit with holding days above 30. -/
def specBucketGt30 (t : Trade × Overlap) : Bool :=
  decide (t.1.outcome = Outcome.targetHit) && decide (30 < t.1.holdingDays.getD 0)

/-- Spec-side test: a trade that did not hit its target counts as NeverHit. -/
def specNeverHit (t : Trade × Overlap) : Bool :=
  decide (¬ t.1.outcome = Outcome.targetHit)

section OverlapLemmas

/-- The short-circuiting inner loop computes the declarative classification:
FullyOverlapped exactly when some other interval intersects and contains,
otherwise PartiallyOverlapped when the flag is set or some other interval
intersects, otherwise NoOverlap. -/
lemma classifyLoop_eq (si ei : Int) (i : Nat) (l : List (Nat × Int × Int)) (part : Bool) :
    classifyLoop si ei i l part =
      (if l.any (fun p => decide (p.1 ≠ i) && intersectsB si ei p.2.1 p.2.2 &&
            containsB si ei p.2.1 p.2.2) then Overlap.fullyOverlapped
       else if part || l.any (fun p => decide (p.1 ≠ i) && intersectsB si ei p.2.1 p.2.2)
       then Overlap.partOverlapped
       else Overlap.noOverlap) := by
  induction l generalizing part with
  | nil => simp [classifyLoop]
  | cons hd tl ih =>
    obtain ⟨j, sj, ej⟩ := hd
    by_cases hj : j = i
    · subst hj
      have h1 : (decide (j ≠ j)) = false := by simp
      have hL : classifyLoop si ei j ((j, sj, ej) :: tl) part =
          classifyLoop si ei j tl part := by
        simp [classifyLoop]
      simp only [List.any_cons, h1, Bool.false_and, Bool.false_or, hL]
      exact ih part
    · have h1 : (decide (j ≠ i)) = true := by simp [hj]
      cases hI : intersectsB si ei sj ej with
      | false =>
        have hL : classifyLoop si ei i ((j, sj, ej) :: tl) part =
            classifyLoop si ei i tl part := by
          simp [classifyLoop, hj, hI]
        simp only [List.any_cons, h1, hI, Bool.true_and, Bool.and_false, Bool.false_and,
          Bool.false_or, hL]
        exact ih part
      | true =>
        cases hC : containsB si ei sj ej with
        | true =>
          have hL : classifyLoop si ei i ((j, sj, ej) :: tl) part =
              Overlap.fullyOverlapped := by
            simp [classifyLoop, hj, hI, hC]
          simp only [List.any_cons, h1, hI, hC, Bool.true_and, Bool.and_true, Bool.true_or, hL]
          simp
        | false =>
          have hL : classifyLoop si ei i ((j, sj, ej) :: tl) part =
              classifyLoop si ei i tl true := by
            simp [classifyLoop, hj, hI, hC]
          rw [hL, ih]
          simp only [List.any_cons, h1, hI, hC, Bool.true_and, Bool.and_false, Bool.and_true,
            Bool.false_or, Bool.true_or, Bool.or_true]

/-- The loop-based classifier and the declarative classifier agree. -/
lemma classify_overlaps_eq_spec (ts : List Trade) (last : Int) :
    classify_overlaps ts last = specClassifyOverlaps ts last := by
  simp only [classify_overlaps, specClassifyOverlaps]
  congr 1
  apply List.map_congr_left
  intro p _
  rw [classifyLoop_eq]
  simp only [specOverlapAt, Bool.false_or]

/-- Inserting into a sorted list is a permutation of consing. -/
lemma insertByEntry_perm (t : Trade) (l : List Trade) :
    List.Perm (insertByEntry t l) (t :: l) := by
  induction l with
  | nil => simp [insertByEntry]
  | cons u us ih =>
    rw [insertByEntry]
    split
    · exact List.Perm.refl _
    · exact (ih.cons u).trans (List.Perm.swap t u us)

/-- Sorting by entry date permutes the trade list. -/
lemma sortByEntry_perm (ts : List Trade) : List.Perm (sortByEntry ts) ts := by
  induction ts with
  | nil => exact List.Perm.refl _
  | cons t ts ih => exact (insertByEntry_perm t (sortByEntry ts)).trans (ih.cons t)

/-- A list with at least two occurrences of `v` has, for every position
holding `v`, another position holding `v`. -/
lemma count_two_exists {α : Type} [BEq α] [LawfulBEq α] :
    ∀ (l : List α) (v : α), 2 ≤ l.count v → ∀ (n : Nat) (hn : n < l.length),
      l.get ⟨n, hn⟩ = v → ∃ (m : Nat) (hm : m < l.length), m ≠ n ∧ l.get ⟨m, hm⟩ = v := by
  intro l
  induction l with
  | nil => intro v _ n hn; simp at hn
  | cons x xs ih =>
    intro v h2 n hn hv
    rcases n with _ | n'
    · simp only [List.get] at hv
      subst hv
      rw [List.count_cons_self] at h2
      have hmem : x ∈ xs := List.count_pos_iff.mp (by omega)
      obtain ⟨⟨m, hm⟩, hgm⟩ := List.mem_iff_get.mp hmem
      refine ⟨m + 1, by simpa using Nat.succ_lt_succ hm, by omega, ?_⟩
      simpa using hgm
    · have hn' : n' < xs.length := by simpa using hn
      have hv' : xs.get ⟨n', hn'⟩ = v := by simpa using hv
      by_cases hx : x = v
      · exact ⟨0, by simp, by omega, by simpa using hx⟩
      · have h2' : 2 ≤ xs.count v := by
          rw [List.count_cons_of_ne (fun hvx => hx hvx.symm)] at h2
          exact h2
        obtain ⟨m, hm, hne, hgm⟩ := ih v h2' n' hn' hv'
        refine ⟨m + 1, by simpa using Nat.succ_lt_succ hm, by omega, ?_⟩
        simpa using hgm

/-- Every entry of the classified output is the sorted trade at some index,
tagged with the declarative classification of its interval at that index. -/
lemma mem_classify_overlaps (ts : List Trade) (last : Int) (p : Trade × Overlap)
    (hp : p ∈ classify_overlaps ts last) :
    ∃ (n : Nat) (hn : n < (sortByEntry ts).length)
      (hn2 : n < ((sortByEntry ts).map (effInterval last)).length),
      p.1 = (sortByEntry ts).get ⟨n, hn⟩ ∧
      p.2 = specOverlapAt ((sortByEntry ts).map (effInterval last)) n
        (((sortByEntry ts).map (effInterval last)).get ⟨n, hn2⟩).1
        (((sortByEntry ts).map (effInterval last)).get ⟨n, hn2⟩).2 := by
  rw [classify_overlaps_eq_spec] at hp
  simp only [specClassifyOverlaps] at hp
  obtain ⟨⟨n, hlen⟩, hget⟩ := List.mem_iff_get.mp hp
  have hn : n < (sortByEntry ts).length := by
    simp only [List.length_zip, List.length_map, List.enum_length, lt_min_iff] at hlen
    exact hlen.1
  have hn2 : n < ((sortByEntry ts).map (effInterval last)).length := by
    simpa using hn
  refine ⟨n, hn, hn2, ?_, ?_⟩
  · rw [← hget]
    simp [List.get_zip]
  · rw [← hget]
    simp [List.get_zip, List.getElem_enum]

end OverlapLemmas

/-- Claim C1: the overlap classifier assigns each trade its effective
interval `[entryDate, exitDate or lastKnownDate]` and classifies it against
all other trades by the closed-interval test: FullyOverlapped when some
other intersecting interval fully contains it, PartiallyOverlapped when some
other interval intersects it but none contains it, NoOverlap when none
intersects; in particular, when trade X strictly contains trade Y (in a
two-trade list), Y is FullyOverlapped while X is only PartiallyOverlapped. -/
theorem overlap_classification_rule (ts : List Trade) (last : Int) (tX tY : Trade)
    (hY : tY.entryDate ≤ tY.exitDate.getD last)
    (h1 : tX.entryDate ≤ tY.entryDate)
    (h2 : tY.exitDate.getD last ≤ tX.exitDate.getD last)
    (hne : effInterval last tX ≠ effInterval last tY) :
    classify_overlaps ts last = specClassifyOverlaps ts last ∧
    classify_overlaps [tX, tY] last =
      [(tX, Overlap.partOverlapped), (tY, Overlap.fullyOverlapped)] := by
  refine ⟨classify_overlaps_eq_spec ts last, ?_⟩
  have hsort : sortByEntry [tX, tY] = [tX, tY] := by
    simp [sortByEntry, insertByEntry, h1]
  have hne' : ¬(tX.entryDate = tY.entryDate ∧
      tX.exitDate.getD last = tY.exitDate.getD last) := by
    intro h
    exact hne (by simp [effInterval, Prod.ext_iff, h.1, h.2])
  have hint1 : intersectsB tX.entryDate (tX.exitDate.getD last)
      tY.entryDate (tY.exitDate.getD last) = true := by
    rw [intersectsB, Bool.and_eq_true, decide_eq_true_eq, decide_eq_true_eq]
    omega
  have hcon1 : containsB tX.entryDate (tX.exitDate.getD last)
      tY.entryDate (tY.exitDate.getD last) = false := by
    rw [Bool.eq_false_iff]
    intro hcontra
    rw [containsB, Bool.and_eq_true, decide_eq_true_eq, decide_eq_true_eq] at hcontra
    exact hne' ⟨le_antisymm h1 hcontra.1, le_antisymm hcontra.2 h2⟩
  have hint2 : intersectsB tY.entryDate (tY.exitDate.getD last)
      tX.entryDate (tX.exitDate.getD last) = true := by
    rw [intersectsB, Bool.and_eq_true, decide_eq_true_eq, decide_eq_true_eq]
    omega
  have hcon2 : containsB tY.entryDate (tY.exitDate.getD last)
      tX.entryDate (tX.exitDate.getD last) = true := by
    rw [containsB, Bool.and_eq_true, decide_eq_true_eq, decide_eq_true_eq]
    exact ⟨h1, h2⟩
  simp only [classify_overlaps, hsort, List.map, effInterval, List.enum, List.enumFrom,
    List.zip, List.zipWith]
  simp only [classifyLoop, hint1, hcon1, hint2, hcon2]
  norm_num

/-- Witness for C1 at the spec's example: X spans days 1 to 10, Y days 3 to 5. -/
theorem overlap_classification_rule_witness :
    tradeY.entryDate ≤ tradeY.exitDate.getD 0 ∧
    tradeX.entryDate ≤ tradeY.entryDate ∧
    tradeY.exitDate.getD 0 ≤ tradeX.exitDate.getD 0 ∧
    effInterval 0 tradeX ≠ effInterval 0 tradeY ∧
    classify_overlaps [tradeX, tradeY] 0 =
      [(tradeX, Overlap.partOverlapped), (tradeY, Overlap.fullyOverlapped)] :=
  ⟨by decide, by decide, by decide, by decide,
   (overlap_classification_rule [] 0 tradeX tradeY (by decide) (by decide) (by decide)
     (by decide)).2⟩

/-- Claim C10: two distinct trades with identical effective intervals are
both classified FullyOverlapped, since each contains the other under the
non-strict containment test. -/
theorem identical_intervals_fully (ts : List Trade) (last : Int) (p : Trade × Overlap)
    (hp : p ∈ classify_overlaps ts last)
    (hse : (effInterval last p.1).1 ≤ (effInterval last p.1).2)
    (hc : 2 ≤ (ts.map (effInterval last)).count (effInterval last p.1)) :
    p.2 = Overlap.fullyOverlapped := by
  obtain ⟨n, hn, hn2, hp1, hp2⟩ := mem_classify_overlaps ts last p hp
  have hperm : ((sortByEntry ts).map (effInterval last)).count (effInterval last p.1) =
      (ts.map (effInterval last)).count (effInterval last p.1) := by
    rw [List.count_eq_countP, List.count_eq_countP]
    exact ((sortByEntry_perm ts).map (effInterval last)).countP_eq _
  have hivn : ((sortByEntry ts).map (effInterval last)).get ⟨n, hn2⟩ =
      effInterval last p.1 := by
    rw [hp1]
    simp [List.get_map]
  obtain ⟨m, hm, hmn, hgm⟩ := count_two_exists ((sortByEntry ts).map (effInterval last))
    (effInterval last p.1) (by omega) n hn2 hivn
  rw [hp2, hivn, specOverlapAt, if_pos]
  rw [List.any_eq_true]
  refine ⟨(m, ((sortByEntry ts).map (effInterval last)).get ⟨m, hm⟩), ?_, ?_⟩
  · have hmm : m < ((sortByEntry ts).map (effInterval last)).enum.length := by
      simpa using hm
    have heq : ((sortByEntry ts).map (effInterval last)).enum.get ⟨m, hmm⟩ =
        (m, ((sortByEntry ts).map (effInterval last)).get ⟨m, hm⟩) := by
      simp [List.getElem_enum]
    rw [← heq]
    exact List.get_mem _ _ _
  · rw [hgm]
    have h1 : (decide (m ≠ n)) = true := by simp [hmn]
    simp only [h1, intersectsB, containsB, Bool.true_and, Bool.and_eq_true,
      decide_eq_true_eq]
    exact ⟨⟨hse, hse⟩, le_refl _, le_refl _⟩

/-- Witness for C10: two trades with identical effective interval days 1-5
(one closed, one open through last date 5) are both FullyOverlapped. -/
theorem identical_intervals_fully_witness :
    (tradeA, Overlap.fullyOverlapped) ∈ classify_overlaps [tradeA, tradeB] 5 ∧
    (effInterval 5 tradeA).1 ≤ (effInterval 5 tradeA).2 ∧
    2 ≤ (([tradeA, tradeB].map (effInterval 5)).count (effInterval 5 tradeA)) ∧
    (tradeA, Overlap.fullyOverlapped).2 = Overlap.fullyOverlapped :=
  ⟨by decide, by decide, by decide,
   identical_intervals_fully [tradeA, tradeB] 5 (tradeA, Overlap.fullyOverlapped)
     (by decide) (by decide) (by decide)⟩

/-- Claim C2: normalScore and bonusScore are the spec's weighted sums of the
bucket percentages, the three reported scores are those values and their sum
each rounded to 2 decimal places, and the reported weightedScore equals
`round(normalScore + bonusScore, 2)` exactly, for all inputs. -/
theorem calculate_scores_spec (c : Counts) :
    calculate_scores c =
      (round2 (specNormalScore c), round2 (specBonusScore c),
       round2 (specNormalScore c + specBonusScore c)) := by
  simp only [calculate_scores, specNormalScore, specBonusScore, Prod.mk.injEq]
  exact ⟨congrArg round2 (by ring), congrArg round2 (by ring), congrArg round2 (by ring)⟩

section ScorerLemmas

/-- Counting a trade's overlap type leaves the `<=5` bucket unchanged. -/
lemma bumpOverlap_le5 (c : CountsN) (o : Overlap) : (bumpOverlap c o).le5 = c.le5 := by
  cases o <;> rfl

/-- Effect of one trade on the `<=5` bucket counter. -/
lemma bumpTrade_le5 (c : CountsN) (t : Trade × Overlap) :
    (bumpTrade c t).le5 = c.le5 + (if specBucketLe5 t then 1 else 0) := by
  obtain ⟨⟨ed, ep, exd, exp2, oc, hd⟩, o⟩ := t
  cases oc with
  | targetHit =>
    simp only [bumpTrade, specBucketLe5, apply_ite CountsN.le5, bumpOverlap_le5]
    split_ifs <;> simp_all <;> omega
  | openTrade =>
    simp only [bumpTrade, specBucketLe5, apply_ite CountsN.le5, bumpOverlap_le5]
    simp

/-- Effect of one trade on the `5_to_10` bucket counter. -/
lemma bumpTrade_5to10 (c : CountsN) (t : Trade × Overlap) :
    (bumpTrade c t).b5to10 = c.b5to10 + (if specBucket5to10 t then 1 else 0) := by
  obtain ⟨⟨ed, ep, exd, exp2, oc, hd⟩, o⟩ := t
  have hb : ∀ (c : CountsN) (o : Overlap), (bumpOverlap c o).b5to10 = c.b5to10 := by
    intro c o; cases o <;> rfl
  cases oc with
  | targetHit =>
    simp only [bumpTrade, specBucket5to10, apply_ite CountsN.b5to10, hb]
    split_ifs <;> simp_all <;> omega
  | openTrade =>
    simp only [bumpTrade, specBucket5to10, apply_ite CountsN.b5to10, hb]
    simp

/-- Effect of one trade on the `10_to_20` bucket counter. -/
lemma bumpTrade_10to20 (c : CountsN) (t : Trade × Overlap) :
    (bumpTrade c t).b10to20 = c.b10to20 + (if specBucket10to20 t then 1 else 0) := by
  obtain ⟨⟨ed, ep, exd, exp2, oc, hd⟩, o⟩ := t
  have hb : ∀ (c : CountsN) (o : Overlap), (bumpOverlap c o).b10to20 = c.b10to20 := by
    intro c o; cases o <;> rfl
  cases oc with
  | targetHit =>
    simp only [bumpTrade, specBucket10to20, apply_ite CountsN.b10to20, hb]
    split_ifs <;> simp_all <;> omega
  | openTrade =>
    simp only [bumpTrade, specBucket10to20, apply_ite CountsN.b10to20, hb]
    simp

/-- Effect of one trade on the `20_to_30` bucket counter. -/
lemma bumpTrade_20to30 (c : CountsN) (t : Trade × Overlap) :
    (bumpTrade c t).b20to30 = c.b20to30 + (if specBucket20to30 t then 1 else 0) := by
  obtain ⟨⟨ed, ep, exd, exp2, oc, hd⟩, o⟩ := t
  have hb : ∀ (c : CountsN) (o : Overlap), (bumpOverlap c o).b20to30 = c.b20to30 := by
    intro c o; cases o <;> rfl
  cases oc with
  | targetHit =>
    simp only [bumpTrade, specBucket20to30, apply_ite CountsN.b20to30, hb]
    split_ifs <;> simp_all <;> omega
  | openTrade =>
    simp only [bumpTrade, specBucket20to30, apply_ite CountsN.b20to30, hb]
    simp

/-- Effect of one trade on the `>30` bucket counter. -/
lemma bumpTrade_gt30 (c : CountsN) (t : Trade × Overlap) :
    (bumpTrade c t).gt30 = c.gt30 + (if specBucketGt30 t then 1 else 0) := by
  obtain ⟨⟨ed, ep, exd, exp2, oc, hd⟩, o⟩ := t
  have hb : ∀ (c : CountsN) (o : Overlap), (bumpOverlap c o).gt30 = c.gt30 := by
    intro c o; cases o <;> rfl
  cases oc with
  | targetHit =>
    simp only [bumpTrade, specBucketGt30, apply_ite CountsN.gt30, hb]
    split_ifs <;> simp_all <;> omega
  | openTrade =>
    simp only [bumpTrade, specBucketGt30, apply_ite CountsN.gt30, hb]
    simp

/-- Effect of one trade on the NeverHit counter. -/
lemma bumpTrade_neverHit (c : CountsN) (t : Trade × Overlap) :
    (bumpTrade c t).neverHit = c.neverHit + (if specNeverHit t then 1 else 0) := by
  obtain ⟨⟨ed, ep, exd, exp2, oc, hd⟩, o⟩ := t
  have hb : ∀ (c : CountsN) (o : Overlap), (bumpOverlap c o).neverHit = c.neverHit := by
    intro c o; cases o <;> rfl
  cases oc with
  | targetHit =>
    simp only [bumpTrade, specNeverHit, apply_ite CountsN.neverHit, hb]
    split_ifs <;> simp_all
  | openTrade =>
    simp only [bumpTrade, specNeverHit, apply_ite CountsN.neverHit, hb]
    simp

/-- The `<=5` counter after the loop counts the trades in that bucket. -/
lemma foldl_le5 (ts : List (Trade × Overlap)) :
    ∀ c, (ts.foldl bumpTrade c).le5 = c.le5 + ts.countP specBucketLe5 := by
  induction ts with
  | nil => intro c; simp
  | cons t ts ih =>
    intro c
    rw [List.foldl_cons, List.countP_cons, ih, bumpTrade_le5]
    omega

/-- The `5_to_10` counter after the loop counts the trades in that bucket. -/
lemma foldl_5to10 (ts : List (Trade × Overlap)) :
    ∀ c, (ts.foldl bumpTrade c).b5to10 = c.b5to10 + ts.countP specBucket5to10 := by
  induction ts with
  | nil => intro c; simp
  | cons t ts ih =>
    intro c
    rw [List.foldl_cons, List.countP_cons, ih, bumpTrade_5to10]
    omega

/-- The `10_to_20` counter after the loop counts the trades in that bucket. -/
lemma foldl_10to20 (ts : List (Trade × Overlap)) :
    ∀ c, (ts.foldl bumpTrade c).b10to20 = c.b10to20 + ts.countP specBucket10to20 := by
  induction ts with
  | nil => intro c; simp
  | cons t ts ih =>
    intro c
    rw [List.foldl_cons, List.countP_cons, ih, bumpTrade_10to20]
    omega

/-- The `20_to_30` counter after the loop counts the trades in that bucket. -/
lemma foldl_20to30 (ts : List (Trade × Overlap)) :
    ∀ c, (ts.foldl bumpTrade c).b20to30 = c.b20to30 + ts.countP specBucket20to30 := by
  induction ts with
  | nil => intro c; simp
  | cons t ts ih =>
    intro c
    rw [List.foldl_cons, List.countP_cons, ih, bumpTrade_20to30]
    omega

/-- The `>30` counter after the loop counts the trades in that bucket. -/
lemma foldl_gt30 (ts : List (Trade × Overlap)) :
    ∀ c, (ts.foldl bumpTrade c).gt30 = c.gt30 + ts.countP specBucketGt30 := by
  induction ts with
  | nil => intro c; simp
  | cons t ts ih =>
    intro c
    rw [List.foldl_cons, List.countP_cons, ih, bumpTrade_gt30]
    omega

/-- The NeverHit counter after the loop counts the non-TargetHit trades. -/
lemma foldl_neverHit (ts : List (Trade × Overlap)) :
    ∀ c, (ts.foldl bumpTrade c).neverHit = c.neverHit + ts.countP specNeverHit := by
  induction ts with
  | nil => intro c; simp
  | cons t ts ih =>
    intro c
    rw [List.foldl_cons, List.countP_cons, ih, bumpTrade_neverHit]
    omega

/-- Every trade lies in exactly one of the five holding-day buckets or in
NeverHit. -/
lemma six_bucket_one (t : Trade × Overlap) :
    (if specBucketLe5 t then 1 else 0) + (if specBucket5to10 t then 1 else 0) +
    (if specBucket10to20 t then 1 else 0) + (if specBucket20to30 t then 1 else 0) +
    (if specBucketGt30 t then 1 else 0) + (if specNeverHit t then 1 else 0) = 1 := by
  obtain ⟨⟨ed, ep, exd, exp2, oc, hd⟩, o⟩ := t
  cases oc <;>
    simp only [specBucketLe5, specBucket5to10, specBucket10to20, specBucket20to30,
      specBucketGt30, specNeverHit, Bool.and_eq_true, decide_eq_true_eq] <;>
  · split_ifs <;> simp_all <;> omega

/-- The six bucket counts partition the trade list. -/
lemma six_countP_sum (ts : List (Trade × Overlap)) :
    ts.countP specBucketLe5 + ts.countP specBucket5to10 + ts.countP specBucket10to20 +
    ts.countP specBucket20to30 + ts.countP specBucketGt30 + ts.countP specNeverHit =
    ts.length := by
  induction ts with
  | nil => simp
  | cons t ts ih =>
    simp only [List.countP_cons, List.length_cons]
    have := six_bucket_one t
    omega

end ScorerLemmas

/-- Claim C3: with N total trades, each TargetHit trade is counted in exactly one
holding-day bucket with inclusive upper boundaries (5 days in `<=5`, 10 days
in `5_to_10`), every other trade in NeverHit, and the six percentages of N
sum to 100. -/
theorem bucket_partition (ts : List (Trade × Overlap)) (h : ts ≠ []) :
    (compute_counts ts ts.length).le5 =
      (ts.countP specBucketLe5 : ℚ) / (ts.length : ℚ) * 100 ∧
    (compute_counts ts ts.length).b5to10 =
      (ts.countP specBucket5to10 : ℚ) / (ts.length : ℚ) * 100 ∧
    (compute_counts ts ts.length).b10to20 =
      (ts.countP specBucket10to20 : ℚ) / (ts.length : ℚ) * 100 ∧
    (compute_counts ts ts.length).b20to30 =
      (ts.countP specBucket20to30 : ℚ) / (ts.length : ℚ) * 100 ∧
    (compute_counts ts ts.length).gt30 =
      (ts.countP specBucketGt30 : ℚ) / (ts.length : ℚ) * 100 ∧
    (compute_counts ts ts.length).neverHit =
      (ts.countP specNeverHit : ℚ) / (ts.length : ℚ) * 100 ∧
    (compute_counts ts ts.length).le5 + (compute_counts ts ts.length).b5to10 +
      (compute_counts ts ts.length).b10to20 + (compute_counts ts ts.length).b20to30 +
      (compute_counts ts ts.length).gt30 + (compute_counts ts ts.length).neverHit = 100 := by
  have hpos : 0 < ts.length := List.length_pos.mpr h
  have hN : ((ts.length : ℚ)) ≠ 0 := Nat.cast_ne_zero.mpr (by omega)
  have e1 : (compute_counts ts ts.length).le5 =
      (ts.countP specBucketLe5 : ℚ) / (ts.length : ℚ) * 100 := by
    simp [compute_counts, toPct, hpos, foldl_le5, initCounts]
  have e2 : (compute_counts ts ts.length).b5to10 =
      (ts.countP specBucket5to10 : ℚ) / (ts.length : ℚ) * 100 := by
    simp [compute_counts, toPct, hpos, foldl_5to10, initCounts]
  have e3 : (compute_counts ts ts.length).b10to20 =
      (ts.countP specBucket10to20 : ℚ) / (ts.length : ℚ) * 100 := by
    simp [compute_counts, toPct, hpos, foldl_10to20, initCounts]
  have e4 : (compute_counts ts ts.length).b20to30 =
      (ts.countP specBucket20to30 : ℚ) / (ts.length : ℚ) * 100 := by
    simp [compute_counts, toPct, hpos, foldl_20to30, initCounts]
  have e5 : (compute_counts ts ts.length).gt30 =
      (ts.countP specBucketGt30 : ℚ) / (ts.length : ℚ) * 100 := by
    simp [compute_counts, toPct, hpos, foldl_gt30, initCounts]
  have e6 : (compute_counts ts ts.length).neverHit =
      (ts.countP specNeverHit : ℚ) / (ts.length : ℚ) * 100 := by
    simp [compute_counts, toPct, hpos, foldl_neverHit, initCounts]
  refine ⟨e1, e2, e3, e4, e5, e6, ?_⟩
  rw [e1, e2, e3, e4, e5, e6]
  have hsum : ((ts.countP specBucketLe5 : ℚ) + ts.countP specBucket5to10 +
      ts.countP specBucket10to20 + ts.countP specBucket20to30 +
      ts.countP specBucketGt30 + ts.countP specNeverHit) = (ts.length : ℚ) := by
    exact_mod_cast congrArg (Nat.cast : Nat → ℚ) (six_countP_sum ts)
  calc (ts.countP specBucketLe5 : ℚ) / (ts.length : ℚ) * 100 +
      (ts.countP specBucket5to10 : ℚ) / (ts.length : ℚ) * 100 +
      (ts.countP specBucket10to20 : ℚ) / (ts.length : ℚ) * 100 +
      (ts.countP specBucket20to30 : ℚ) / (ts.length : ℚ) * 100 +
      (ts.countP specBucketGt30 : ℚ) / (ts.length : ℚ) * 100 +
      (ts.countP specNeverHit : ℚ) / (ts.length : ℚ) * 100 =
      ((ts.countP specBucketLe5 : ℚ) + ts.countP specBucket5to10 +
        ts.countP specBucket10to20 + ts.countP specBucket20to30 +
        ts.countP specBucketGt30 + ts.countP specNeverHit) / (ts.length : ℚ) * 100 := by
        ring
    _ = (ts.length : ℚ) / (ts.length : ℚ) * 100 := by rw [hsum]
    _ = 100 := by rw [div_self hN]; ring

/-- Witness for C3 at a one-trade list: the single TargetHit trade with 4
holding days lands in the `<=5` bucket and the six percentages sum to 100. -/
theorem bucket_partition_witness :
    ctrades3 ≠ [] ∧
    (compute_counts ctrades3 ctrades3.length).le5 + (compute_counts ctrades3 ctrades3.length).b5to10 +
      (compute_counts ctrades3 ctrades3.length).b10to20 +
      (compute_counts ctrades3 ctrades3.length).b20to30 +
      (compute_counts ctrades3 ctrades3.length).gt30 +
      (compute_counts ctrades3 ctrades3.length).neverHit = 100 :=
  ⟨by decide, (bucket_partition ctrades3 (by decide)).2.2.2.2.2.2⟩

section SimulatorLemmas

/-- A successful `find?` splits its list into a failing prefix, the hit, and
a remainder. -/
lemma find?_eq_some_split {α : Type} (p : α → Bool) :
    ∀ (l : List α) (a : α), l.find? p = some a →
      ∃ l1 l2, l = l1 ++ a :: l2 ∧ p a = true ∧ ∀ x ∈ l1, p x = false := by
  intro l
  induction l with
  | nil => intro a h; simp [List.find?] at h
  | cons x xs ih =>
    intro a h
    rw [List.find?_cons] at h
    cases hx : p x with
    | true =>
      rw [hx] at h
      simp only [Option.some.injEq] at h
      subst h
      exact ⟨[], xs, rfl, hx, by intro y hy; simp at hy⟩
    | false =>
      rw [hx] at h
      obtain ⟨l1, l2, rfl, hpa, hl1⟩ := ih a h
      refine ⟨x :: l1, l2, rfl, hpa, ?_⟩
      intro y hy
      rcases List.mem_cons.mp hy with rfl | hy'
      · exact hx
      · exact hl1 y hy'

end SimulatorLemmas

/-- Claim C4: each qualifying entry bar opens exactly one trade with
`entryPrice = close`, `targetPrice = round(1.05 * close, 2)`; the first
strictly-later bar whose high reaches the target supplies the exit date,
exit price, TargetHit outcome and the whole-day holding period, and when no
later bar qualifies the trade stays Open with no exit fields. -/
theorem trade_simulation (bars : List Bar)
    (hs : bars.Pairwise (fun a b => a.date < b.date)) (b : Bar)
    (hb : b ∈ entryBars bars) :
    (mkTrade bars b).entryDate = b.date ∧
    (mkTrade bars b).entryPrice = b.close ∧
    simulate bars = (entryBars bars).map (mkTrade bars) ∧
    ((∃ ex, ex ∈ bars ∧ b.date < ex.date ∧ round2 (1.05 * b.close) ≤ ex.high ∧
        (∀ x ∈ bars, b.date < x.date → x.date < ex.date →
          x.high < round2 (1.05 * b.close)) ∧
        (mkTrade bars b).outcome = Outcome.targetHit ∧
        (mkTrade bars b).exitDate = some ex.date ∧
        (mkTrade bars b).exitPrice = some ex.high ∧
        (mkTrade bars b).holdingDays = some (ex.date - b.date)) ∨
      ((∀ x ∈ bars, b.date < x.date → x.high < round2 (1.05 * b.close)) ∧
        (mkTrade bars b).outcome = Outcome.openTrade ∧
        (mkTrade bars b).exitDate = none ∧
        (mkTrade bars b).exitPrice = none ∧
        (mkTrade bars b).holdingDays = none)) := by
  rcases hf : (bars.filter (fun x => decide (b.date < x.date))).find?
      (fun x => decide (round2 (1.05 * b.close) ≤ x.high)) with _ | ex
  · refine ⟨by simp [mkTrade, hf], by simp [mkTrade, hf], rfl, Or.inr ⟨?_, ?_, ?_, ?_, ?_⟩⟩
    · intro x hx hdate
      have hxf : x ∈ bars.filter (fun x => decide (b.date < x.date)) :=
        List.mem_filter.mpr ⟨hx, by simpa using hdate⟩
      have := List.find?_eq_none.mp hf x hxf
      simp only [decide_eq_true_eq] at this
      exact lt_of_not_le this
    · simp [mkTrade, hf]
    · simp [mkTrade, hf]
    · simp [mkTrade, hf]
    · simp [mkTrade, hf]
  · have hexf : ex ∈ bars.filter (fun x => decide (b.date < x.date)) :=
      List.mem_of_find?_eq_some hf
    have hexmem : ex ∈ bars := (List.mem_filter.mp hexf).1
    have hexdate : b.date < ex.date := by
      have := (List.mem_filter.mp hexf).2
      simpa using this
    have hexhigh : round2 (1.05 * b.close) ≤ ex.high := by
      have := List.find?_some hf
      simpa using this
    have hmin : ∀ x ∈ bars, b.date < x.date → x.date < ex.date →
        x.high < round2 (1.05 * b.close) := by
      obtain ⟨l1, l2, hsplit, _, hl1⟩ := find?_eq_some_split _ _ _ hf
      have hpw : (bars.filter (fun x => decide (b.date < x.date))).Pairwise
          (fun a b => a.date < b.date) := hs.filter _
      intro x hx hdate hlt
      have hxf : x ∈ bars.filter (fun x => decide (b.date < x.date)) :=
        List.mem_filter.mpr ⟨hx, by simpa using hdate⟩
      rw [hsplit] at hxf hpw
      rcases List.mem_append.mp hxf with h1 | h2
      · have := hl1 x h1
        simp only [decide_eq_false_iff_not] at this
        exact lt_of_not_le this
      · rcases List.mem_cons.mp h2 with rfl | h3
        · exact absurd hlt (lt_irrefl _)
        · have hpw2 := (List.pairwise_append.mp hpw).2.1
          have := (List.pairwise_cons.mp hpw2).1 x h3
          omega
    exact ⟨by simp [mkTrade, hf], by simp [mkTrade, hf], rfl,
      Or.inl ⟨ex, hexmem, hexdate, hexhigh, hmin, by simp [mkTrade, hf],
        by simp [mkTrade, hf], by simp [mkTrade, hf], by simp [mkTrade, hf]⟩⟩

/-- Claim C9: every simulated trade with an exit date exits strictly after
its entry, with holding days equal to the day difference, hence at least 1. -/
theorem entry_before_exit (bars : List Bar) (t : Trade) (ht : t ∈ simulate bars)
    (d : Int) (hd : t.exitDate = some d) :
    t.entryDate < d ∧ t.holdingDays = some (d - t.entryDate) ∧ 1 ≤ d - t.entryDate := by
  obtain ⟨b, hbmem, rfl⟩ := List.mem_map.mp ht
  rcases hf : (bars.filter (fun x => decide (b.date < x.date))).find?
      (fun x => decide (round2 (1.05 * b.close) ≤ x.high)) with _ | ex
  · simp [mkTrade, hf] at hd
  · have hexf : ex ∈ bars.filter (fun x => decide (b.date < x.date)) :=
      List.mem_of_find?_eq_some hf
    have hexdate : b.date < ex.date := by
      have := (List.mem_filter.mp hexf).2
      simpa using this
    have hd' : ex.date = d := by
      simpa [mkTrade, hf] using hd
    subst hd'
    refine ⟨by simpa [mkTrade, hf] using hexdate, by simp [mkTrade, hf], ?_⟩
    have : (mkTrade bars b).entryDate = b.date := by simp [mkTrade, hf]
    rw [this]
    omega

set_option maxRecDepth 100000 in
set_option maxHeartbeats 4000000 in
/-- Witness for C4 on the concrete 201-bar series: bar 199 is a qualifying
entry bar and the simulated trade exits at the next bar. -/
theorem trade_simulation_witness :
    cbars.Pairwise (fun a b => a.date < b.date) ∧
    cb199 ∈ entryBars cbars ∧
    ((mkTrade cbars cb199).entryDate = cb199.date ∧
     (mkTrade cbars cb199).entryPrice = cb199.close ∧
     simulate cbars = (entryBars cbars).map (mkTrade cbars) ∧
     ((∃ ex, ex ∈ cbars ∧ cb199.date < ex.date ∧
         round2 (1.05 * cb199.close) ≤ ex.high ∧
         (∀ x ∈ cbars, cb199.date < x.date → x.date < ex.date →
           x.high < round2 (1.05 * cb199.close)) ∧
         (mkTrade cbars cb199).outcome = Outcome.targetHit ∧
         (mkTrade cbars cb199).exitDate = some ex.date ∧
         (mkTrade cbars cb199).exitPrice = some ex.high ∧
         (mkTrade cbars cb199).holdingDays = some (ex.date - cb199.date)) ∨
       ((∀ x ∈ cbars, cb199.date < x.date → x.high < round2 (1.05 * cb199.close)) ∧
         (mkTrade cbars cb199).outcome = Outcome.openTrade ∧
         (mkTrade cbars cb199).exitDate = none ∧
         (mkTrade cbars cb199).exitPrice = none ∧
         (mkTrade cbars cb199).holdingDays = none))) := by
  have hpw : cbars.Pairwise (fun a b => a.date < b.date) := by decide
  have hb : cb199 ∈ entryBars cbars := by with_unfolding_all decide
  exact ⟨hpw, hb, trade_simulation cbars hpw cb199 hb⟩

set_option maxRecDepth 100000 in
set_option maxHeartbeats 4000000 in
/-- Witness for C9 on the concrete 201-bar series: the simulated trade
enters at day 199 and exits at day 200, holding for one day. -/
theorem entry_before_exit_witness :
    ctrade ∈ simulate cbars ∧ ctrade.exitDate = some 200 ∧
    ctrade.entryDate < 200 ∧ ctrade.holdingDays = some (200 - ctrade.entryDate) ∧
    1 ≤ (200 : Int) - ctrade.entryDate := by
  have hm : ctrade ∈ simulate cbars := by with_unfolding_all decide
  have h := entry_before_exit cbars ctrade hm 200 (by decide)
  exact ⟨hm, by decide, h.1, h.2.1, h.2.2⟩

section IndicatorLemmas

/-- Summing a list of finite cells gives the finite sum. -/
lemma psum_map_num (l : List ℚ) : psum (l.map PVal.num) = PVal.num l.sum := by
  induction l with
  | nil => rfl
  | cons x xs ih =>
    show PVal.add (PVal.num x) (psum (xs.map PVal.num)) = PVal.num (x :: xs).sum
    rw [ih, List.sum_cons]
    rfl

/-- Addition never produces -inf from operands that are not -inf. -/
lemma add_ne_ninf {a b : PVal} (ha : a ≠ PVal.ninf) (hb : b ≠ PVal.ninf) :
    PVal.add a b ≠ PVal.ninf := by
  cases a <;> cases b <;> simp_all [PVal.add]

/-- A windowed sum of cells that are not -inf is not -inf. -/
lemma psum_ne_ninf (l : List PVal) (h : ∀ x ∈ l, x ≠ PVal.ninf) :
    psum l ≠ PVal.ninf := by
  induction l with
  | nil => simp [psum]
  | cons x xs ih =>
    have hx := h x (List.mem_cons_self x xs)
    have hxs := ih (fun y hy => h y (List.mem_cons_of_mem x hy))
    exact add_ne_ninf hx hxs

/-- A rolling mean of a series that never takes -inf never takes -inf. -/
lemma rollMeanP_ne_ninf (g : Nat → PVal) (n i len : Nat)
    (hg : ∀ j, g j ≠ PVal.ninf) (hn : 0 < n) :
    rollMeanP g n i len ≠ PVal.ninf := by
  unfold rollMeanP
  split
  · have hs : psum (pwindow g n i) ≠ PVal.ninf := by
      apply psum_ne_ninf
      intro x hx
      simp only [pwindow, List.mem_map] at hx
      obtain ⟨k, _, rfl⟩ := hx
      exact hg _
    have hnq : (0 : ℚ) ≤ (n : ℚ) := Nat.cast_nonneg n
    have hnq' : ((n : ℚ)) ≠ 0 := by
      exact_mod_cast Nat.pos_iff_ne_zero.mp hn
    rcases hp : psum (pwindow g n i) with q | _ | _ | _
    · simp [PVal.div, hnq']
    · simp [PVal.div, hnq]
    · exact absurd hp hs
    · simp [PVal.div]
  · simp

/-- Pandas' `x < c` mask is true exactly for a finite value below `c`,
provided `x` is not -inf. -/
lemma ltB_eq_true_iff {x : PVal} (hx : x ≠ PVal.ninf) (c : ℚ) :
    PVal.ltB x c = true ↔ ∃ q, x = PVal.num q ∧ q < c := by
  cases x <;> simp_all [PVal.ltB]

/-- Pandas' `c > x` mask is true exactly for a finite value below `c`,
provided `x` is not -inf. -/
lemma gtB_eq_true_iff {x : PVal} (hx : x ≠ PVal.ninf) (c : ℚ) :
    PVal.gtB c x = true ↔ ∃ q, x = PVal.num q ∧ q < c := by
  cases x <;> simp_all [PVal.gtB]

/-- Folding `min` never exceeds the initial value. -/
lemma foldr_min_le_init (xs : List ℚ) (x : ℚ) : xs.foldr min x ≤ x := by
  induction xs with
  | nil => exact le_refl x
  | cons a as ih => exact le_trans (min_le_right a (as.foldr min x)) ih

/-- The minimum of a trailing window is at most the current value. -/
lemma listMin_window_le (f : Nat → ℚ) (n i : Nat) :
    listMin (window f (n + 1) i) ≤ f i := by
  have hw : window f (n + 1) i = f i :: (List.range n).map (fun k => f (i - (k + 1))) := by
    simp [window, List.range_succ_eq_map, Function.comp, Nat.sub_zero, List.map_map]
  rw [hw, listMin]
  exact foldr_min_le_init _ _

end IndicatorLemmas

section IndicatorShapeLemmas

/-- Raw %K never takes -inf when each bar's close is at least its low: a
zero range forces a zero (or NaN) numerator, never a negative one. -/
lemma raw_k_ne_ninf (bars : List Bar) (hvalid : ∀ b ∈ bars, b.low ≤ b.close)
    (i : Nat) : raw_k bars i ≠ PVal.ninf := by
  unfold raw_k low_min high_max rollMin rollMax
  by_cases hg : 4 ≤ i + 1 ∧ i < bars.length
  · rw [if_pos hg, if_pos hg]
    set m := listMin (window (lowAt bars) 4 i) with hm
    set M := listMax (window (highAt bars) 4 i) with hM
    have hmc : m ≤ closeAt bars i := by
      have h1 : m ≤ lowAt bars i := listMin_window_le (lowAt bars) 3 i
      have h2 : lowAt bars i ≤ closeAt bars i := by
        unfold lowAt closeAt
        have hmem : bars.getD i default ∈ bars := by
          rw [List.getD_eq_getElem bars default hg.2]
          exact List.getElem_mem hg.2
        exact hvalid _ hmem
      exact le_trans h1 h2
    show PVal.div (PVal.mul (PVal.num 100) (PVal.sub (PVal.num (closeAt bars i))
      (PVal.num m))) (PVal.sub (PVal.num M) (PVal.num m)) ≠ PVal.ninf
    show PVal.div (PVal.num (100 * (closeAt bars i - m))) (PVal.num (M - m)) ≠ PVal.ninf
    by_cases hMm : M - m = 0
    · have hnum : 0 ≤ 100 * (closeAt bars i - m) := by
        have : 0 ≤ closeAt bars i - m := by linarith
        linarith
      simp only [PVal.div, hMm, if_true, if_pos rfl]
      split_ifs with h1 h2
      · simp
      · linarith
      · simp
    · simp [PVal.div, hMm]
  · rw [if_neg hg, if_neg hg]
    show PVal.div (PVal.mul (PVal.num 100) (PVal.sub (PVal.num (closeAt bars i))
      PVal.nan)) (PVal.sub PVal.nan PVal.nan) ≠ PVal.ninf
    simp [PVal.div, PVal.mul, PVal.sub]

/-- The published %K never takes -inf on valid bars. -/
lemma stochK_ne_ninf (bars : List Bar) (hvalid : ∀ b ∈ bars, b.low ≤ b.close)
    (i : Nat) : stochK bars i ≠ PVal.ninf :=
  rollMeanP_ne_ninf _ 3 i _ (raw_k_ne_ninf bars hvalid) (by omega)

/-- The published %D never takes -inf on valid bars. -/
lemma stochD_ne_ninf (bars : List Bar) (hvalid : ∀ b ∈ bars, b.low ≤ b.close)
    (i : Nat) : stochD bars i ≠ PVal.ninf :=
  rollMeanP_ne_ninf _ 3 i _ (stochK_ne_ninf bars hvalid) (by omega)

/-- The 200-day moving average is NaN or a finite value. -/
lemma longMA_shape (bars : List Bar) (i : Nat) :
    longMA bars i = PVal.nan ∨ ∃ q, longMA bars i = PVal.num q := by
  unfold longMA rollMeanP
  split
  · right
    have hw : pwindow (fun j => PVal.num (closeAt bars j)) 200 i =
        ((List.range 200).map (fun k => closeAt bars (i - k))).map PVal.num := by
      simp [pwindow, List.map_map]
    rw [hw, psum_map_num]
    refine ⟨((List.range 200).map (fun k => closeAt bars (i - k))).sum / 200, ?_⟩
    have h200 : (200 : ℚ) ≠ 0 := by norm_num
    simp [PVal.div, h200]
  · left; rfl

/-- The 200-day moving average never takes -inf. -/
lemma longMA_ne_ninf (bars : List Bar) (i : Nat) : longMA bars i ≠ PVal.ninf := by
  rcases longMA_shape bars i with h | ⟨q, h⟩ <;> rw [h] <;> simp

/-- The gain series holds the finite nonnegative spec value at every index. -/
lemma gain_eq_num_gainQ (bars : List Bar) (i : Nat) :
    gain bars i = PVal.num (gainQ bars i) := by
  unfold gain delta gainQ
  by_cases hg : 1 ≤ i ∧ i < bars.length
  · rw [if_pos hg]
    by_cases hlt : closeAt bars (i - 1) < closeAt bars i
    · have h0 : 0 < closeAt bars i - closeAt bars (i - 1) := by linarith
      simp [h0, hg, hlt]
    · have h0 : ¬ 0 < closeAt bars i - closeAt bars (i - 1) := by
        intro h; exact hlt (by linarith)
      simp [h0, hg, hlt]
  · rw [if_neg hg]
    have : ¬ (1 ≤ i ∧ i < bars.length ∧ closeAt bars (i - 1) < closeAt bars i) := by
      tauto
    simp [this]

/-- The loss series holds the finite nonnegative spec value at every index. -/
lemma loss_eq_num_lossQ (bars : List Bar) (i : Nat) :
    loss bars i = PVal.num (lossQ bars i) := by
  unfold loss delta lossQ
  by_cases hg : 1 ≤ i ∧ i < bars.length
  · rw [if_pos hg]
    by_cases hlt : closeAt bars i < closeAt bars (i - 1)
    · have h0 : closeAt bars i - closeAt bars (i - 1) < 0 := by linarith
      have hv : -(closeAt bars i - closeAt bars (i - 1)) =
          closeAt bars (i - 1) - closeAt bars i := by ring
      simp [h0, hg, hlt, hv]
    · have h0 : ¬ closeAt bars i - closeAt bars (i - 1) < 0 := by
        intro h; exact hlt (by linarith)
      simp [h0, hg, hlt]
  · rw [if_neg hg]
    have : ¬ (1 ≤ i ∧ i < bars.length ∧ closeAt bars i < closeAt bars (i - 1)) := by
      tauto
    simp [this]

/-- The spec gain value is nonnegative. -/
lemma gainQ_nonneg (bars : List Bar) (i : Nat) : 0 ≤ gainQ bars i := by
  unfold gainQ
  split_ifs with h
  · linarith [h.2.2]
  · exact le_refl 0

/-- The spec loss value is nonnegative. -/
lemma lossQ_nonneg (bars : List Bar) (i : Nat) : 0 ≤ lossQ bars i := by
  unfold lossQ
  split_ifs with h
  · linarith [h.2.2]
  · exact le_refl 0

/-- The average gain is NaN (incomplete window) or the finite nonnegative
half-sum of the last two gains. -/
lemma avg_gain_shape (bars : List Bar) (i : Nat) :
    (avg_gain bars i = PVal.nan ∧ ¬(1 ≤ i ∧ i < bars.length)) ∨
    (avg_gain bars i = PVal.num ((gainQ bars (i - 1) + gainQ bars i) / 2) ∧
      (1 ≤ i ∧ i < bars.length)) := by
  unfold avg_gain rollMeanP
  by_cases hg : 2 ≤ i + 1 ∧ i < bars.length
  · right
    rw [if_pos hg]
    have hw : pwindow (gain bars) 2 i = [gain bars i, gain bars (i - 1)] := by
      simp [pwindow, List.range_succ]
    rw [hw]
    refine ⟨?_, by omega, hg.2⟩
    rw [show psum [gain bars i, gain bars (i - 1)] =
        PVal.add (gain bars i) (PVal.add (gain bars (i - 1)) (PVal.num 0)) from rfl]
    rw [gain_eq_num_gainQ, gain_eq_num_gainQ]
    show PVal.div (PVal.num (gainQ bars i + (gainQ bars (i - 1) + 0))) (PVal.num 2) =
      PVal.num ((gainQ bars (i - 1) + gainQ bars i) / 2)
    have h2 : (2 : ℚ) ≠ 0 := by norm_num
    simp only [PVal.div, h2, if_false, if_neg h2]
    exact congrArg PVal.num (by ring)
  · left
    rw [if_neg hg]
    exact ⟨rfl, by omega⟩

/-- The average loss is NaN (incomplete window) or the finite nonnegative
half-sum of the last two losses. -/
lemma avg_loss_shape (bars : List Bar) (i : Nat) :
    (avg_loss bars i = PVal.nan ∧ ¬(1 ≤ i ∧ i < bars.length)) ∨
    (avg_loss bars i = PVal.num ((lossQ bars (i - 1) + lossQ bars i) / 2) ∧
      (1 ≤ i ∧ i < bars.length)) := by
  unfold avg_loss rollMeanP
  by_cases hg : 2 ≤ i + 1 ∧ i < bars.length
  · right
    rw [if_pos hg]
    have hw : pwindow (loss bars) 2 i = [loss bars i, loss bars (i - 1)] := by
      simp [pwindow, List.range_succ]
    rw [hw]
    refine ⟨?_, by omega, hg.2⟩
    rw [show psum [loss bars i, loss bars (i - 1)] =
        PVal.add (loss bars i) (PVal.add (loss bars (i - 1)) (PVal.num 0)) from rfl]
    rw [loss_eq_num_lossQ, loss_eq_num_lossQ]
    show PVal.div (PVal.num (lossQ bars i + (lossQ bars (i - 1) + 0))) (PVal.num 2) =
      PVal.num ((lossQ bars (i - 1) + lossQ bars i) / 2)
    have h2 : (2 : ℚ) ≠ 0 := by norm_num
    simp only [PVal.div, h2, if_false, if_neg h2]
    exact congrArg PVal.num (by ring)
  · left
    rw [if_neg hg]
    exact ⟨rfl, by omega⟩

/-- The ratio rs is NaN, +inf (zero average loss with positive average gain)
or a finite nonnegative value; never -inf. -/
lemma rs_shape (bars : List Bar) (i : Nat) :
    rs bars i = PVal.nan ∨ rs bars i = PVal.inf ∨
    ∃ q, rs bars i = PVal.num q ∧ 0 ≤ q := by
  unfold rs
  rcases avg_gain_shape bars i with ⟨hg, hgi⟩ | ⟨hg, hgi⟩ <;>
    rcases avg_loss_shape bars i with ⟨hl, _⟩ | ⟨hl, _⟩ <;> rw [hg, hl]
  · left; rfl
  · left; rfl
  · left; rfl
  · set g := (gainQ bars (i - 1) + gainQ bars i) / 2 with hgdef
    set l := (lossQ bars (i - 1) + lossQ bars i) / 2 with hldef
    have hg0 : 0 ≤ g := by
      have := gainQ_nonneg bars (i - 1); have := gainQ_nonneg bars i
      rw [hgdef]; positivity
    have hl0 : 0 ≤ l := by
      have := lossQ_nonneg bars (i - 1); have := lossQ_nonneg bars i
      rw [hldef]; positivity
    by_cases hlz : l = 0
    · by_cases hgz : 0 < g
      · right; left
        simp [PVal.div, hlz, hgz]
      · have hg0' : g = 0 := le_antisymm (not_lt.mp hgz) hg0
        left
        simp [PVal.div, hlz, hg0']
    · right; right
      refine ⟨g / l, by simp [PVal.div, hlz], ?_⟩
      exact div_nonneg hg0 hl0

/-- RSI(2) is NaN or a finite value; never an infinity. -/
lemma rsi2_shape (bars : List Bar) (i : Nat) :
    rsi2 bars i = PVal.nan ∨ ∃ q, rsi2 bars i = PVal.num q := by
  unfold rsi2
  rcases rs_shape bars i with h | h | ⟨q, h, hq⟩ <;> rw [h]
  · left; rfl
  · right
    exact ⟨100, by simp [PVal.add, PVal.div, PVal.sub]⟩
  · right
    refine ⟨100 - 100 / (1 + q), ?_⟩
    have h1 : (1 : ℚ) + q ≠ 0 := by positivity
    simp [PVal.add, PVal.div, PVal.sub, h1]

/-- RSI(2) never takes -inf. -/
lemma rsi2_ne_ninf (bars : List Bar) (i : Nat) : rsi2 bars i ≠ PVal.ninf := by
  rcases rsi2_shape bars i with h | ⟨q, h⟩ <;> rw [h] <;> simp

end IndicatorShapeLemmas

/-- Claim C5: an entry signal fires at bar i exactly when stochK, stochD,
rsi2 and longMA are all defined finite values satisfying
`stochK < 20 ∧ stochD < 20 ∧ rsi2 < 15 ∧ close > longMA`; a bar with any
undefined required indicator never triggers, and the Boolean evaluation is
total (never throws). -/
theorem entry_condition (bars : List Bar)
    (hvalid : ∀ b ∈ bars, b.low ≤ b.close ∧ b.close ≤ b.high) (i : Nat) :
    entrySignal bars i = true ↔
      ∃ k d r m : ℚ, stochK bars i = PVal.num k ∧ stochD bars i = PVal.num d ∧
        rsi2 bars i = PVal.num r ∧ longMA bars i = PVal.num m ∧
        k < 20 ∧ d < 20 ∧ r < 15 ∧ m < closeAt bars i := by
  have hlow : ∀ b ∈ bars, b.low ≤ b.close := fun b hb => (hvalid b hb).1
  unfold entrySignal
  rw [Bool.and_eq_true, Bool.and_eq_true, Bool.and_eq_true]
  rw [ltB_eq_true_iff (stochK_ne_ninf bars hlow i), ltB_eq_true_iff (stochD_ne_ninf bars hlow i),
    ltB_eq_true_iff (rsi2_ne_ninf bars i), gtB_eq_true_iff (longMA_ne_ninf bars i)]
  constructor
  · rintro ⟨⟨⟨⟨k, hk, hk20⟩, ⟨d, hd, hd20⟩⟩, ⟨r, hr, hr15⟩⟩, ⟨m, hm, hmc⟩⟩
    exact ⟨k, d, r, m, hk, hd, hr, hm, hk20, hd20, hr15, hmc⟩
  · rintro ⟨k, d, r, m, hk, hd, hr, hm, h1, h2, h3, h4⟩
    exact ⟨⟨⟨⟨k, hk, h1⟩, ⟨d, hd, h2⟩⟩, ⟨r, hr, h3⟩⟩, ⟨m, hm, h4⟩⟩

set_option maxRecDepth 100000 in
set_option maxHeartbeats 4000000 in
/-- Witness for C5 at bar 199 of the concrete series, where the signal fires. -/
theorem entry_condition_witness :
    (∀ b ∈ cbars, b.low ≤ b.close ∧ b.close ≤ b.high) ∧
    entrySignal cbars 199 = true ∧
    (entrySignal cbars 199 = true ↔
      ∃ k d r m : ℚ, stochK cbars 199 = PVal.num k ∧ stochD cbars 199 = PVal.num d ∧
        rsi2 cbars 199 = PVal.num r ∧ longMA cbars 199 = PVal.num m ∧
        k < 20 ∧ d < 20 ∧ r < 15 ∧ m < closeAt cbars 199) := by
  have hv : ∀ b ∈ cbars, b.low ≤ b.close ∧ b.close ≤ b.high := by decide
  exact ⟨hv, by with_unfolding_all decide, entry_condition cbars hv 199⟩

/-- Counterexample to C7 as stated: at bar 1 of a two-bar rising series the
average loss is zero, yet rsi2 is the defined value 100, not undefined. -/
theorem rsi2_defined_at_zero_avg_loss :
    avg_loss cbarsUp 1 = PVal.num 0 ∧ rsi2 cbarsUp 1 = PVal.num 100 ∧
    rsi2 cbarsUp 1 ≠ PVal.nan := by
  refine ⟨?_, ?_, ?_⟩ <;> with_unfolding_all decide

/-- Claim C7 (amended): at a bar where the average loss is zero, rsi2 is
undefined (NaN) only when the average gain is also zero; when the average
gain is positive the ratio is +inf and rsi2 evaluates to the defined value
100 (which still cannot satisfy the `rsi2 < 15` entry test). No error is
raised in either case. -/
theorem rsi2_zero_avg_loss (bars : List Bar) (i : Nat)
    (h : avg_loss bars i = PVal.num 0) :
    (avg_gain bars i = PVal.num 0 → rsi2 bars i = PVal.nan) ∧
    (∀ g : ℚ, avg_gain bars i = PVal.num g → 0 < g → rsi2 bars i = PVal.num 100) := by
  constructor
  · intro hg
    rw [rsi2, rs, h, hg]
    rfl
  · intro g hg hgpos
    rw [rsi2, rs, h, hg]
    have h1 : PVal.div (PVal.num g) (PVal.num 0) = PVal.inf := by
      simp [PVal.div, hgpos]
    rw [h1]
    show PVal.num (100 - 0) = PVal.num 100
    norm_num

/-- Witness for C7 (amended): on the rising two-bar series the average loss
is 0, the average gain is 1/2, and rsi2 evaluates to 100. -/
theorem rsi2_zero_avg_loss_witness :
    avg_loss cbarsUp 1 = PVal.num 0 ∧ avg_gain cbarsUp 1 = PVal.num (1 / 2) ∧
    (0 : ℚ) < 1 / 2 ∧ rsi2 cbarsUp 1 = PVal.num 100 := by
  have h0 : avg_loss cbarsUp 1 = PVal.num 0 := by with_unfolding_all decide
  have h1 : avg_gain cbarsUp 1 = PVal.num (1 / 2) := by with_unfolding_all decide
  exact ⟨h0, h1, by norm_num,
    (rsi2_zero_avg_loss cbarsUp 1 h0).2 (1 / 2) h1 (by norm_num)⟩

/-- Counterexample to C8 as stated: at the second bar (index 1, only one
prior price change) of a falling two-bar series, rsi2 is the defined value
0, not undefined — `where(delta > 0, 0)` silently turns the first NaN diff
into a zero gain/loss observation. -/
theorem rsi2_defined_at_second_bar :
    rsi2 cbarsDown 1 = PVal.num 0 ∧ rsi2 cbarsDown 1 ≠ PVal.nan := by
  constructor <;> with_unfolding_all decide

/-- Claim C8 (amended): rsi2 follows the gain/loss construction — per-bar
changes split into gains and losses stored as positive magnitudes with the
first bar's NaN change replaced by 0, both averaged over a trailing 2-bar
window, `rs = avgGain/avgLoss` and `rsi2 = 100 - 100/(1+rs)` whenever the
average loss is nonzero; rsi2 is undefined at the first bar (index 0), but
is already defined at the second bar whenever the averages exist and the
average loss is nonzero. -/
theorem rsi2_construction (bars : List Bar) :
    rsi2 bars 0 = PVal.nan ∧
    (∀ i, 1 ≤ i → i < bars.length →
      avg_gain bars i = PVal.num ((gainQ bars (i - 1) + gainQ bars i) / 2) ∧
      avg_loss bars i = PVal.num ((lossQ bars (i - 1) + lossQ bars i) / 2)) ∧
    (∀ i l g, avg_loss bars i = PVal.num l → avg_gain bars i = PVal.num g →
      l ≠ 0 → rsi2 bars i = PVal.num (100 - 100 / (1 + g / l))) := by
  refine ⟨?_, ?_, ?_⟩
  · have hg : avg_gain bars 0 = PVal.nan := by
      unfold avg_gain rollMeanP
      rw [if_neg (by omega)]
    have hl : avg_loss bars 0 = PVal.nan := by
      unfold avg_loss rollMeanP
      rw [if_neg (by omega)]
    rw [rsi2, rs, hg, hl]
    rfl
  · intro i h1 h2
    rcases avg_gain_shape bars i with ⟨_, hno⟩ | ⟨hg, _⟩
    · exact absurd ⟨h1, h2⟩ hno
    · rcases avg_loss_shape bars i with ⟨_, hno⟩ | ⟨hl, _⟩
      · exact absurd ⟨h1, h2⟩ hno
      · exact ⟨hg, hl⟩
  · intro i l g hl hg hlz
    have hl0 : 0 ≤ l := by
      rcases avg_loss_shape bars i with ⟨hn, _⟩ | ⟨hv, _⟩
      · rw [hl] at hn; cases hn
      · rw [hl] at hv
        have : l = (lossQ bars (i - 1) + lossQ bars i) / 2 := by
          injection hv
        rw [this]
        have := lossQ_nonneg bars (i - 1); have := lossQ_nonneg bars i
        positivity
    have hg0 : 0 ≤ g := by
      rcases avg_gain_shape bars i with ⟨hn, _⟩ | ⟨hv, _⟩
      · rw [hg] at hn; cases hn
      · rw [hg] at hv
        have : g = (gainQ bars (i - 1) + gainQ bars i) / 2 := by
          injection hv
        rw [this]
        have := gainQ_nonneg bars (i - 1); have := gainQ_nonneg bars i
        positivity
    have hlpos : 0 < l := lt_of_le_of_ne hl0 (Ne.symm hlz)
    have hdenom : (1 : ℚ) + g / l ≠ 0 := by
      have : 0 ≤ g / l := div_nonneg hg0 hl0
      positivity
    rw [rsi2, rs, hl, hg]
    have h1 : PVal.div (PVal.num g) (PVal.num l) = PVal.num (g / l) := by
      simp [PVal.div, hlz]
    rw [h1]
    show PVal.sub (PVal.num 100) (PVal.div (PVal.num 100) (PVal.num (1 + g / l))) =
      PVal.num (100 - 100 / (1 + g / l))
    simp [PVal.div, PVal.sub, hdenom]

/-- Witness for C8 (amended) on the falling two-bar series: rsi2 is NaN at
bar 0, the averages at bar 1 are the spec half-sums (avgGain 0, avgLoss 1/2),
and rsi2 at bar 1 evaluates through the formula to a defined value. -/
theorem rsi2_construction_witness :
    rsi2 cbarsDown 0 = PVal.nan ∧
    avg_gain cbarsDown 1 = PVal.num ((gainQ cbarsDown 0 + gainQ cbarsDown 1) / 2) ∧
    avg_loss cbarsDown 1 = PVal.num ((lossQ cbarsDown 0 + lossQ cbarsDown 1) / 2) ∧
    rsi2 cbarsDown 1 = PVal.num (100 - 100 / (1 + 0 / (1 / 2 : ℚ))) := by
  have h := rsi2_construction cbarsDown
  have h2 := h.2.1 1 (by norm_num) (by decide)
  refine ⟨h.1, h2.1, h2.2, ?_⟩
  exact h.2.2 1 (1 / 2) 0 (by with_unfolding_all decide)
    (by with_unfolding_all decide) (by norm_num)

section WindowLemmas

/-- Folding `min` yields the initial value or a list member. -/
lemma foldr_min_mem (xs : List ℚ) (x : ℚ) :
    xs.foldr min x = x ∨ xs.foldr min x ∈ xs := by
  induction xs with
  | nil => exact Or.inl rfl
  | cons a as ih =>
    rcases min_choice a (as.foldr min x) with h | h
    · right; rw [List.foldr_cons, h]; exact List.mem_cons_self a as
    · rcases ih with h2 | h2
      · left; rw [List.foldr_cons, h, h2]
      · right; rw [List.foldr_cons, h]; exact List.mem_cons_of_mem a h2

/-- Folding `min` is a lower bound for the list members. -/
lemma foldr_min_le_mem (xs : List ℚ) (x y : ℚ) (hy : y ∈ xs) : xs.foldr min x ≤ y := by
  induction xs with
  | nil => cases hy
  | cons a as ih =>
    rcases List.mem_cons.mp hy with rfl | h
    · exact min_le_left _ _
    · exact le_trans (min_le_right _ _) (ih h)

/-- The minimum of a nonempty list is a member. -/
lemma listMin_mem (l : List ℚ) (h : l ≠ []) : listMin l ∈ l := by
  cases l with
  | nil => exact absurd rfl h
  | cons x xs =>
    rw [listMin]
    rcases foldr_min_mem xs x with h2 | h2
    · rw [h2]; exact List.mem_cons_self x xs
    · exact List.mem_cons_of_mem x h2

/-- The minimum of a list is a lower bound. -/
lemma listMin_le (l : List ℚ) (y : ℚ) (hy : y ∈ l) : listMin l ≤ y := by
  cases l with
  | nil => cases hy
  | cons x xs =>
    rw [listMin]
    rcases List.mem_cons.mp hy with rfl | h
    · exact foldr_min_le_init xs y
    · exact foldr_min_le_mem xs x y h

/-- The minimum is invariant under list reversal. -/
lemma listMin_reverse (l : List ℚ) (h : l ≠ []) : listMin l.reverse = listMin l := by
  have hrev : l.reverse ≠ [] := by simpa using h
  apply le_antisymm
  · exact listMin_le _ _ (List.mem_reverse.mpr (listMin_mem l h))
  · exact listMin_le _ _ (List.mem_reverse.mp (listMin_mem l.reverse hrev))

/-- Folding `max` yields the initial value or a list member. -/
lemma foldr_max_mem (xs : List ℚ) (x : ℚ) :
    xs.foldr max x = x ∨ xs.foldr max x ∈ xs := by
  induction xs with
  | nil => exact Or.inl rfl
  | cons a as ih =>
    rcases max_choice a (as.foldr max x) with h | h
    · right; rw [List.foldr_cons, h]; exact List.mem_cons_self a as
    · rcases ih with h2 | h2
      · left; rw [List.foldr_cons, h, h2]
      · right; rw [List.foldr_cons, h]; exact List.mem_cons_of_mem a h2

/-- Folding `max` is an upper bound for the list members. -/
lemma foldr_max_ge_mem (xs : List ℚ) (x y : ℚ) (hy : y ∈ xs) : y ≤ xs.foldr max x := by
  induction xs with
  | nil => cases hy
  | cons a as ih =>
    rcases List.mem_cons.mp hy with rfl | h
    · exact le_max_left _ _
    · exact le_trans (ih h) (le_max_right _ _)

/-- Folding `max` never drops below the initial value. -/
lemma foldr_max_ge_init (xs : List ℚ) (x : ℚ) : x ≤ xs.foldr max x := by
  induction xs with
  | nil => exact le_refl x
  | cons a as ih => exact le_trans ih (le_max_right a (as.foldr max x))

/-- The maximum of a nonempty list is a member. -/
lemma listMax_mem (l : List ℚ) (h : l ≠ []) : listMax l ∈ l := by
  cases l with
  | nil => exact absurd rfl h
  | cons x xs =>
    rw [listMax]
    rcases foldr_max_mem xs x with h2 | h2
    · rw [h2]; exact List.mem_cons_self x xs
    · exact List.mem_cons_of_mem x h2

/-- The maximum of a list is an upper bound. -/
lemma listMax_ge (l : List ℚ) (y : ℚ) (hy : y ∈ l) : y ≤ listMax l := by
  cases l with
  | nil => cases hy
  | cons x xs =>
    rw [listMax]
    rcases List.mem_cons.mp hy with rfl | h
    · exact foldr_max_ge_init xs y
    · exact foldr_max_ge_mem xs x y h

/-- The maximum is invariant under list reversal. -/
lemma listMax_reverse (l : List ℚ) (h : l ≠ []) : listMax l.reverse = listMax l := by
  have hrev : l.reverse ≠ [] := by simpa using h
  apply le_antisymm
  · exact listMax_ge _ _ (List.mem_reverse.mp (listMax_mem l.reverse hrev))
  · exact listMax_ge _ _ (List.mem_reverse.mpr (listMax_mem l h))

/-- The contiguous slice ending at index `i` equals the reversed trailing
window read through `getD`. -/
lemma slice_eq_reverse_window (l : List ℚ) (n i : Nat) (hn : n ≤ i + 1)
    (hi : i < l.length) :
    (l.drop (i + 1 - n)).take n =
      ((List.range n).map (fun k => l.getD (i - k) 0)).reverse := by
  apply List.ext_getElem
  · simp only [List.length_take, List.length_drop, List.length_reverse,
      List.length_map, List.length_range]
    omega
  · intro k h1 h2
    have hlt : i + 1 - n + k < l.length := by
      simp only [List.length_take, List.length_drop] at h1
      omega
    have hk : k < n := by
      simp only [List.length_take, List.length_drop] at h1
      omega
    rw [List.getElem_take, List.getElem_drop, List.getElem_reverse]
    simp only [List.length_map, List.length_range, List.getElem_map, List.getElem_range]
    rw [List.getD_eq_getElem l 0 (by omega)]
    congr 1
    omega

end WindowLemmas

section TakeLemmas

/-- Reading inside the taken prefix agrees with reading the full list. -/
lemma getD_take_eq {α : Type} (l : List α) (d : α) (i j : Nat) (hj : j ≤ i) :
    (l.take (i + 1)).getD j d = l.getD j d := by
  by_cases h : j < l.length
  · have h1 : j < (l.take (i + 1)).length := by
      simp only [List.length_take]
      omega
    rw [List.getD_eq_getElem _ _ h1, List.getD_eq_getElem _ _ h, List.getElem_take]
  · have h2 : (l.take (i + 1)).length ≤ j := by
      simp only [List.length_take]
      omega
    rw [List.getD_eq_default _ _ (le_of_not_lt h), List.getD_eq_default _ _ h2]

/-- Rolling minimum respects pointwise window agreement and guard agreement. -/
lemma rollMin_congr (f g : Nat → ℚ) (n j len1 len2 : Nat)
    (hf : ∀ k, k < n → f (j - k) = g (j - k))
    (hlen : (n ≤ j + 1 ∧ j < len1) ↔ (n ≤ j + 1 ∧ j < len2)) :
    rollMin f n j len1 = rollMin g n j len2 := by
  unfold rollMin
  have hwin : window f n j = window g n j := by
    unfold window
    apply List.map_congr_left
    intro k hk
    exact hf k (List.mem_range.mp hk)
  by_cases h : n ≤ j + 1 ∧ j < len1
  · rw [if_pos h, if_pos (hlen.mp h), hwin]
  · rw [if_neg h, if_neg (fun hh => h (hlen.mpr hh))]

/-- Rolling maximum respects pointwise window agreement and guard agreement. -/
lemma rollMax_congr (f g : Nat → ℚ) (n j len1 len2 : Nat)
    (hf : ∀ k, k < n → f (j - k) = g (j - k))
    (hlen : (n ≤ j + 1 ∧ j < len1) ↔ (n ≤ j + 1 ∧ j < len2)) :
    rollMax f n j len1 = rollMax g n j len2 := by
  unfold rollMax
  have hwin : window f n j = window g n j := by
    unfold window
    apply List.map_congr_left
    intro k hk
    exact hf k (List.mem_range.mp hk)
  by_cases h : n ≤ j + 1 ∧ j < len1
  · rw [if_pos h, if_pos (hlen.mp h), hwin]
  · rw [if_neg h, if_neg (fun hh => h (hlen.mpr hh))]

/-- Rolling mean respects pointwise window agreement and guard agreement. -/
lemma rollMeanP_congr (f g : Nat → PVal) (n j len1 len2 : Nat)
    (hf : ∀ k, k < n → f (j - k) = g (j - k))
    (hlen : (n ≤ j + 1 ∧ j < len1) ↔ (n ≤ j + 1 ∧ j < len2)) :
    rollMeanP f n j len1 = rollMeanP g n j len2 := by
  unfold rollMeanP
  have hwin : pwindow f n j = pwindow g n j := by
    unfold pwindow
    apply List.map_congr_left
    intro k hk
    exact hf k (List.mem_range.mp hk)
  by_cases h : n ≤ j + 1 ∧ j < len1
  · rw [if_pos h, if_pos (hlen.mp h), hwin]
  · rw [if_neg h, if_neg (fun hh => h (hlen.mpr hh))]

/-- The guard over the taken prefix agrees with the guard over the full
series for indices in the prefix. -/
lemma take_guard_iff (bars : List Bar) (n i j : Nat) (hj : j ≤ i) (hi : i < bars.length) :
    (n ≤ j + 1 ∧ j < (bars.take (i + 1)).length) ↔ (n ≤ j + 1 ∧ j < bars.length) := by
  simp only [List.length_take]
  omega

/-- Raw %K computed over the first `i+1` bars agrees with raw %K over the
full series at indices up to `i` (no look-ahead). -/
lemma raw_k_take (bars : List Bar) (i : Nat) (hi : i < bars.length) :
    ∀ j, j ≤ i → raw_k (bars.take (i + 1)) j = raw_k bars j := by
  intro j hj
  unfold raw_k low_min high_max
  rw [rollMin_congr (lowAt (bars.take (i + 1))) (lowAt bars) 4 j _ _
      (fun k _ => by unfold lowAt; rw [getD_take_eq bars default i (j - k) (by omega)])
      (take_guard_iff bars 4 i j hj hi),
    rollMax_congr (highAt (bars.take (i + 1))) (highAt bars) 4 j _ _
      (fun k _ => by unfold highAt; rw [getD_take_eq bars default i (j - k) (by omega)])
      (take_guard_iff bars 4 i j hj hi)]
  unfold closeAt
  rw [getD_take_eq bars default i j hj]

/-- Published %K has no look-ahead. -/
lemma stochK_take (bars : List Bar) (i : Nat) (hi : i < bars.length) :
    ∀ j, j ≤ i → stochK (bars.take (i + 1)) j = stochK bars j := by
  intro j hj
  unfold stochK
  exact rollMeanP_congr _ _ 3 j _ _
    (fun k _ => raw_k_take bars i hi (j - k) (by omega))
    (take_guard_iff bars 3 i j hj hi)

/-- Published %D has no look-ahead. -/
lemma stochD_take (bars : List Bar) (i : Nat) (hi : i < bars.length) :
    ∀ j, j ≤ i → stochD (bars.take (i + 1)) j = stochD bars j := by
  intro j hj
  unfold stochD
  exact rollMeanP_congr _ _ 3 j _ _
    (fun k _ => stochK_take bars i hi (j - k) (by omega))
    (take_guard_iff bars 3 i j hj hi)

/-- The 200-day moving average has no look-ahead. -/
lemma longMA_take (bars : List Bar) (i : Nat) (hi : i < bars.length) :
    ∀ j, j ≤ i → longMA (bars.take (i + 1)) j = longMA bars j := by
  intro j hj
  unfold longMA
  exact rollMeanP_congr _ _ 200 j _ _
    (fun k _ => by
      unfold closeAt
      rw [getD_take_eq bars default i (j - k) (by omega)])
    (take_guard_iff bars 200 i j hj hi)

end TakeLemmas

section ClosedFormLemmas

/-- Reading a mapped projection through `getD` with default 0 agrees with
projecting the defaulted bar (the default bar has all-zero fields). -/
lemma lowAt_eq_getD_map (bars : List Bar) (j : Nat) :
    lowAt bars j = (bars.map Bar.low).getD j 0 := by
  unfold lowAt
  by_cases h : j < bars.length
  · rw [List.getD_eq_getElem _ _ h, List.getD_eq_getElem _ _ (by simpa using h),
      List.getElem_map]
  · rw [List.getD_eq_default _ _ (le_of_not_lt h),
      List.getD_eq_default _ _ (by simpa using le_of_not_lt h)]
    rfl

/-- High projection through `getD` with default 0. -/
lemma highAt_eq_getD_map (bars : List Bar) (j : Nat) :
    highAt bars j = (bars.map Bar.high).getD j 0 := by
  unfold highAt
  by_cases h : j < bars.length
  · rw [List.getD_eq_getElem _ _ h, List.getD_eq_getElem _ _ (by simpa using h),
      List.getElem_map]
  · rw [List.getD_eq_default _ _ (le_of_not_lt h),
      List.getD_eq_default _ _ (by simpa using le_of_not_lt h)]
    rfl

/-- Close projection through `getD` with default 0. -/
lemma closeAt_eq_getD_map (bars : List Bar) (j : Nat) :
    closeAt bars j = (bars.map Bar.close).getD j 0 := by
  unfold closeAt
  by_cases h : j < bars.length
  · rw [List.getD_eq_getElem _ _ h, List.getD_eq_getElem _ _ (by simpa using h),
      List.getElem_map]
  · rw [List.getD_eq_default _ _ (le_of_not_lt h),
      List.getD_eq_default _ _ (by simpa using le_of_not_lt h)]
    rfl

/-- The rolling-window minimum of the lows equals the minimum over the
contiguous 4-bar slice ending at `i`. -/
lemma listMin_window_eq_slice (bars : List Bar) (i : Nat) (h3 : 3 ≤ i)
    (hlen : i < bars.length) :
    listMin (window (lowAt bars) 4 i) =
      listMin (((bars.map Bar.low).drop (i - 3)).take 4) := by
  have hw : window (lowAt bars) 4 i =
      window (fun j => (bars.map Bar.low).getD j 0) 4 i := by
    unfold window
    apply List.map_congr_left
    intro k _
    exact lowAt_eq_getD_map bars (i - k)
  have hs := slice_eq_reverse_window (bars.map Bar.low) 4 i (by omega) (by simpa using hlen)
  rw [show i + 1 - 4 = i - 3 from by omega] at hs
  rw [hs, listMin_reverse, hw]
  simp [window]
  intro hemp
  have : (4 : Nat) = 0 := by
    have := congrArg List.length hemp
    simpa [window] using this
  omega

/-- The rolling-window maximum of the highs equals the maximum over the
contiguous 4-bar slice ending at `i`. -/
lemma listMax_window_eq_slice (bars : List Bar) (i : Nat) (h3 : 3 ≤ i)
    (hlen : i < bars.length) :
    listMax (window (highAt bars) 4 i) =
      listMax (((bars.map Bar.high).drop (i - 3)).take 4) := by
  have hw : window (highAt bars) 4 i =
      window (fun j => (bars.map Bar.high).getD j 0) 4 i := by
    unfold window
    apply List.map_congr_left
    intro k _
    exact highAt_eq_getD_map bars (i - k)
  have hs := slice_eq_reverse_window (bars.map Bar.high) 4 i (by omega) (by simpa using hlen)
  rw [show i + 1 - 4 = i - 3 from by omega] at hs
  rw [hs, listMax_reverse, hw]
  simp [window]
  intro hemp
  have : (4 : Nat) = 0 := by
    have := congrArg List.length hemp
    simpa [window] using this
  omega

end ClosedFormLemmas

/-- Claim C6: raw %K at index i is `100 * (close[i] - min(low[i-3..i])) /
(max(high[i-3..i]) - min(low[i-3..i]))` over a trailing 4-bar window and is
undefined before 4 bars exist; stochK is the 3-bar trailing average of the
raw %K and stochD the 3-bar trailing average of stochK; longMA is the
trailing 200-bar average of close, undefined before 200 bars exist; and no
value uses bars after the current index. -/
theorem indicator_engine_spec (bars : List Bar) :
    (∀ i, i < 3 → raw_k bars i = PVal.nan) ∧
    (∀ i, 3 ≤ i → i < bars.length →
      listMax (((bars.map Bar.high).drop (i - 3)).take 4) ≠
        listMin (((bars.map Bar.low).drop (i - 3)).take 4) →
      raw_k bars i = PVal.num (100 * (closeAt bars i -
          listMin (((bars.map Bar.low).drop (i - 3)).take 4)) /
        (listMax (((bars.map Bar.high).drop (i - 3)).take 4) -
          listMin (((bars.map Bar.low).drop (i - 3)).take 4)))) ∧
    (∀ i a b c, 2 ≤ i → i < bars.length → raw_k bars (i - 2) = PVal.num a →
      raw_k bars (i - 1) = PVal.num b → raw_k bars i = PVal.num c →
      stochK bars i = PVal.num ((a + b + c) / 3)) ∧
    (∀ i a b c, 2 ≤ i → i < bars.length → stochK bars (i - 2) = PVal.num a →
      stochK bars (i - 1) = PVal.num b → stochK bars i = PVal.num c →
      stochD bars i = PVal.num ((a + b + c) / 3)) ∧
    (∀ i, i < 199 → longMA bars i = PVal.nan) ∧
    (∀ i, 199 ≤ i → i < bars.length →
      longMA bars i =
        PVal.num ((((bars.map Bar.close).drop (i - 199)).take 200).sum / 200)) ∧
    (∀ i, i < bars.length → ∀ j, j ≤ i →
      raw_k (bars.take (i + 1)) j = raw_k bars j ∧
      stochK (bars.take (i + 1)) j = stochK bars j ∧
      stochD (bars.take (i + 1)) j = stochD bars j ∧
      longMA (bars.take (i + 1)) j = longMA bars j) := by
  refine ⟨?_, ?_, ?_, ?_, ?_, ?_, ?_⟩
  · intro i hi
    unfold raw_k low_min high_max rollMin rollMax
    rw [if_neg (by omega), if_neg (by omega)]
    rfl
  · intro i h3 hlen hne
    have hguard : 4 ≤ i + 1 ∧ i < bars.length := ⟨by omega, hlen⟩
    unfold raw_k low_min high_max rollMin rollMax
    rw [if_pos hguard, if_pos hguard]
    rw [listMin_window_eq_slice bars i h3 hlen, listMax_window_eq_slice bars i h3 hlen]
    set m := listMin (((bars.map Bar.low).drop (i - 3)).take 4) with hm
    set M := listMax (((bars.map Bar.high).drop (i - 3)).take 4) with hM
    have hMm : M - m ≠ 0 := sub_ne_zero.mpr hne
    show PVal.div (PVal.num (100 * (closeAt bars i - m))) (PVal.num (M - m)) =
      PVal.num (100 * (closeAt bars i - m) / (M - m))
    simp [PVal.div, hMm]
  · intro i a b c h2 hlen ha hb hc
    unfold stochK rollMeanP
    rw [if_pos ⟨by omega, hlen⟩]
    have hw : pwindow (raw_k bars) 3 i =
        [raw_k bars i, raw_k bars (i - 1), raw_k bars (i - 2)] := by
      simp [pwindow, List.range_succ]
    rw [hw]
    rw [show psum [raw_k bars i, raw_k bars (i - 1), raw_k bars (i - 2)] =
        PVal.add (raw_k bars i) (PVal.add (raw_k bars (i - 1))
          (PVal.add (raw_k bars (i - 2)) (PVal.num 0))) from rfl]
    rw [ha, hb, hc]
    show PVal.div (PVal.num (c + (b + (a + 0)))) (PVal.num ((3 : Nat) : ℚ)) =
      PVal.num ((a + b + c) / 3)
    have h3 : (((3 : Nat) : ℚ)) ≠ 0 := by norm_num
    simp only [PVal.div, if_neg h3]
    exact congrArg PVal.num (by push_cast; ring)
  · intro i a b c h2 hlen ha hb hc
    unfold stochD rollMeanP
    rw [if_pos ⟨by omega, hlen⟩]
    have hw : pwindow (stochK bars) 3 i =
        [stochK bars i, stochK bars (i - 1), stochK bars (i - 2)] := by
      simp [pwindow, List.range_succ]
    rw [hw]
    rw [show psum [stochK bars i, stochK bars (i - 1), stochK bars (i - 2)] =
        PVal.add (stochK bars i) (PVal.add (stochK bars (i - 1))
          (PVal.add (stochK bars (i - 2)) (PVal.num 0))) from rfl]
    rw [ha, hb, hc]
    show PVal.div (PVal.num (c + (b + (a + 0)))) (PVal.num ((3 : Nat) : ℚ)) =
      PVal.num ((a + b + c) / 3)
    have h3 : (((3 : Nat) : ℚ)) ≠ 0 := by norm_num
    simp only [PVal.div, if_neg h3]
    exact congrArg PVal.num (by push_cast; ring)
  · intro i hi
    unfold longMA rollMeanP
    rw [if_neg (by omega)]
  · intro i h199 hlen
    unfold longMA rollMeanP
    rw [if_pos ⟨by omega, hlen⟩]
    have hw : pwindow (fun j => PVal.num (closeAt bars j)) 200 i =
        ((List.range 200).map (fun k => closeAt bars (i - k))).map PVal.num := by
      simp [pwindow, List.map_map]
    rw [hw, psum_map_num]
    have hmapw : (List.range 200).map (fun k => closeAt bars (i - k)) =
        (List.range 200).map (fun k => (bars.map Bar.close).getD (i - k) 0) := by
      apply List.map_congr_left
      intro k _
      exact closeAt_eq_getD_map bars (i - k)
    have hs := slice_eq_reverse_window (bars.map Bar.close) 200 i (by omega)
      (by simpa using hlen)
    rw [show i + 1 - 200 = i - 199 from by omega] at hs
    have hsum : (((bars.map Bar.close).drop (i - 199)).take 200).sum =
        ((List.range 200).map (fun k => closeAt bars (i - k))).sum := by
      rw [hs, List.sum_reverse, hmapw]
    rw [hsum]
    show PVal.div (PVal.num (((List.range 200).map (fun k => closeAt bars (i - k))).sum))
        (PVal.num ((200 : Nat) : ℚ)) =
      PVal.num (((List.range 200).map (fun k => closeAt bars (i - k))).sum / 200)
    have h200 : (((200 : Nat) : ℚ)) ≠ 0 := by norm_num
    simp only [PVal.div, if_neg h200]
    exact congrArg PVal.num (by push_cast; ring)
  · intro i hi j hj
    exact ⟨raw_k_take bars i hi j hj, stochK_take bars i hi j hj,
      stochD_take bars i hi j hj, longMA_take bars i hi j hj⟩

set_option maxRecDepth 10000 in
/-- Witness for C6 on six concrete bars: raw %K is NaN at index 2, takes the
slice formula value at index 3, longMA is NaN early, the take-prefix value
agrees at index 3, and stochK at index 5 averages the three raw %K values. -/
theorem indicator_engine_spec_witness :
    raw_k cbars6 2 = PVal.nan ∧
    listMax (((cbars6.map Bar.high).drop 0).take 4) ≠
      listMin (((cbars6.map Bar.low).drop 0).take 4) ∧
    raw_k cbars6 3 = PVal.num (100 * (closeAt cbars6 3 -
        listMin (((cbars6.map Bar.low).drop 0).take 4)) /
      (listMax (((cbars6.map Bar.high).drop 0).take 4) -
        listMin (((cbars6.map Bar.low).drop 0).take 4))) ∧
    longMA cbars6 0 = PVal.nan ∧
    raw_k (cbars6.take 4) 3 = raw_k cbars6 3 ∧
    stochK cbars6 5 = PVal.num ((500 / 7 + 500 / 7 + 500 / 7) / 3) := by
  have h := indicator_engine_spec cbars6
  have hne : listMax (((cbars6.map Bar.high).drop 0).take 4) ≠
      listMin (((cbars6.map Bar.low).drop 0).take 4) := by with_unfolding_all decide
  have ha : raw_k cbars6 3 = PVal.num (500 / 7) := by with_unfolding_all decide
  have hb : raw_k cbars6 4 = PVal.num (500 / 7) := by with_unfolding_all decide
  have hcc : raw_k cbars6 5 = PVal.num (500 / 7) := by with_unfolding_all decide
  refine ⟨h.1 2 (by norm_num), hne, ?_, h.2.2.2.2.1 0 (by norm_num), ?_, ?_⟩
  · exact h.2.1 3 (by norm_num) (by decide) hne
  · exact (h.2.2.2.2.2.2 3 (by decide) 3 (le_refl 3)).1
  · exact h.2.2.1 5 (500 / 7) (500 / 7) (500 / 7) (by norm_num) (by decide) ha hb hcc
